import Mathlib

/-!
Shallow embedding of the caption tooling of this repository: the SRT
timed-text model (src/utils/fileUtils.ts) and the caption layout engine,
animation logic, layout cache, export flag and key-frame logic
(src/components/ResultsView.tsx).

JavaScript strings are modelled as List Char and JavaScript numbers as
exact rationals (ℚ) or integers.  The JS string primitives used by the
source (String.prototype.split, trim, replace, parseInt, parseFloat,
Array.prototype.join, Math.round) are modelled by the executable
functions below, faithful to the JS semantics at the repository's call
sites (all separators used by the source are nonempty strings).
-/

namespace Cap

attribute [local semireducible] Rat.add Rat.mul Rat.sub Rat.inv Rat.ofScientific

/-- Tests whether the first list is an initial segment of the second
(the prefix test used by the JS split / replace models below). -/
def leadsWith : List Char → List Char → Bool
  | [], _ => true
  | _ :: _, [] => false
  | p :: ps, x :: xs => decide (p = x) && leadsWith ps xs

/-- Worker for jsSplit.  The first numeric argument counts characters of a
separator occurrence that remain to be skipped; while it is positive the
scan consumes characters without testing for a new occurrence, which gives
the left-to-right non-overlapping match semantics of JS String.split. -/
def jsSplitGo (sep : List Char) : ℕ → List Char → List (List Char)
  | _, [] => [[]]
  | skip + 1, _ :: rest => jsSplitGo sep skip rest
  | 0, x :: rest =>
    if sep ≠ [] ∧ leadsWith sep (x :: rest) then
      [] :: jsSplitGo sep (sep.length - 1) rest
    else
      match jsSplitGo sep 0 rest with
      | [] => [[x]]
      | l :: ls => (x :: l) :: ls

/-- Model of JS String.prototype.split with a nonempty string separator:
splits at every non-overlapping occurrence of sep, scanning left to right.
(For sep = [] it returns the whole string, unlike JS; the repository never
splits on the empty string.) -/
def jsSplit (sep xs : List Char) : List (List Char) := jsSplitGo sep 0 xs

/-- Model of JS Array.prototype.join: interleaves sep between elements. -/
def joinSep (sep : List Char) : List (List Char) → List Char
  | [] => []
  | [l] => l
  | l :: ls => l ++ sep ++ joinSep sep ls

/-- Model of JS String.prototype.replace with a string pattern: replaces
only the first occurrence of pat (if any). -/
def jsReplaceFirst (pat rep : List Char) : List Char → List Char
  | [] => []
  | x :: rest =>
    if pat ≠ [] ∧ leadsWith pat (x :: rest) then
      rep ++ (x :: rest).drop pat.length
    else
      x :: jsReplaceFirst pat rep rest

/-- Model of JS String.prototype.replace with a global regexp of a literal
string (as in srt.replace with a global carriage-return-newline pattern):
replaces every non-overlapping occurrence, which is split-then-join. -/
def jsReplaceAll (pat rep xs : List Char) : List Char :=
  joinSep rep (jsSplit pat xs)

/-- Model of JS String.prototype.trim (whitespace here is the Lean Char
whitespace set: space, tab, carriage return, newline; JS additionally
trims some exotic Unicode spaces the repository never produces). -/
def trimLeft (l : List Char) : List Char := l.dropWhile Char.isWhitespace

/-- Model of JS String.prototype.trim. -/
def trim (l : List Char) : List Char :=
  trimLeft ((trimLeft l.reverse).reverse)

/-- No two adjacent characters p, q occur in the list (used to show that a
two-character separator has no occurrence in a string). -/
def pairFree (p q : Char) : List Char → Prop
  | a :: b :: t => ¬(a = p ∧ b = q) ∧ pairFree p q (b :: t)
  | _ => True

/-- Decimal digit character test. -/
def isDigitCh (c : Char) : Bool := decide ('0' ≤ c) && decide (c ≤ '9')

/-- The decimal digit character for d (0-9). -/
def digitChar10 (d : ℕ) : Char :=
  if d = 0 then '0' else if d = 1 then '1' else if d = 2 then '2'
  else if d = 3 then '3' else if d = 4 then '4' else if d = 5 then '5'
  else if d = 6 then '6' else if d = 7 then '7' else if d = 8 then '8'
  else '9'

/-- Digit value of a character in a given radix, as used by JS parseInt
(decimal digits, then letters for radices above ten). -/
def digitValAt (radix : ℕ) (c : Char) : Option ℕ :=
  let raw : Option ℕ :=
    if '0' ≤ c ∧ c ≤ '9' then some (c.toNat - ('0').toNat)
    else if 'a' ≤ c ∧ c ≤ 'z' then some (c.toNat - ('a').toNat + 10)
    else if 'A' ≤ c ∧ c ≤ 'Z' then some (c.toNat - ('A').toNat + 10)
    else none
  match raw with
  | some d => if d < radix then some d else none
  | none => none

/-- Base-10 digits of n, least significant first; the first argument is
fuel (any value at least n suffices), keeping the recursion structural. -/
def natDigitsRev : ℕ → ℕ → List ℕ
  | 0, n => [n % 10]
  | f + 1, n => if n < 10 then [n] else n % 10 :: natDigitsRev f (n / 10)

/-- Model of JS number-to-string for a nonnegative integer value. -/
def natToString (n : ℕ) : List Char :=
  ((natDigitsRev n n).reverse).map digitChar10

/-- Model of JS number-to-string for an integer value (as produced by a
template literal such as the id interpolation in generateSRT). -/
def intToString (i : ℤ) : List Char :=
  if i < 0 then '-' :: natToString i.natAbs else natToString i.natAbs

/-- Digit-run reading step of JS parseInt: take the leading digits of the
given radix (trailing junk is ignored); none models NaN (no digits). -/
def jsParseIntDigits (radix : ℕ) (s3 : List Char) : Option ℕ :=
  let ds := s3.takeWhile (fun c => (digitValAt radix c).isSome)
  if ds = [] then none
  else some (ds.foldl (fun a c => a * radix + ((digitValAt radix c).getD 0)) 0)

/-- Radix-detection step of JS parseInt with an undefined radix argument:
a leading zero-x marks hexadecimal, else decimal. -/
def jsParseIntBody (s2 : List Char) : Option ℕ :=
  if s2.head? = some '0' ∧ (s2.tail.head? = some 'x' ∨ s2.tail.head? = some 'X') then
    jsParseIntDigits 16 (s2.drop 2)
  else
    jsParseIntDigits 10 s2

/-- Model of JS parseInt with an undefined radix argument: skip leading
whitespace, read an optional sign, detect a hexadecimal prefix, then read
digits of the radix, ignoring any trailing junk; none models NaN. -/
def jsParseInt (s : List Char) : Option ℤ :=
  let s1 := s.dropWhile Char.isWhitespace
  if s1.head? = some '-' then (jsParseIntBody s1.tail).map (fun v => -(v : ℤ))
  else if s1.head? = some '+' then (jsParseIntBody s1.tail).map (fun v => (v : ℤ))
  else (jsParseIntBody s1).map (fun v => (v : ℤ))

/-- Value of a least-significant-first digit list. -/
def revVal : List ℕ → ℕ
  | [] => 0
  | d :: t => d + 10 * revVal t

/-- Sign-reading step shared by the JS parseFloat model. -/
def jsReadSign (s : List Char) : Bool × List Char :=
  if s.head? = some '-' then (true, s.tail)
  else if s.head? = some '+' then (false, s.tail)
  else (false, s)

/-- Value of a run of decimal digit characters. -/
def digitsVal (ds : List Char) : ℕ :=
  ds.foldl (fun a c => a * 10 + ((digitValAt 10 c).getD 0)) 0

/-- Model of JS parseFloat: skip whitespace, optional sign, integer part,
optional fraction, optional exponent, ignoring trailing junk; none models
NaN (no digits at all).  (The Infinity literal, never produced by the
repository's timestamps, is not modelled.) -/
def jsParseFloat (s : List Char) : Option ℚ :=
  let s1 := s.dropWhile Char.isWhitespace
  let sg := jsReadSign s1
  let s2 := sg.2
  let intPart := s2.takeWhile (fun c => (digitValAt 10 c).isSome)
  let r2 := s2.dropWhile (fun c => (digitValAt 10 c).isSome)
  let fracPart :=
    if r2.head? = some '.' then r2.tail.takeWhile (fun c => (digitValAt 10 c).isSome)
    else []
  let r3 :=
    if r2.head? = some '.' then r2.tail.dropWhile (fun c => (digitValAt 10 c).isSome)
    else r2
  if intPart = [] ∧ fracPart = [] then none
  else
    let mant : ℚ := (digitsVal intPart : ℚ) + (digitsVal fracPart : ℚ) / ((10 : ℚ) ^ fracPart.length)
    let ex : ℤ :=
      if r3.head? = some 'e' ∨ r3.head? = some 'E' then
        let eg := jsReadSign r3.tail
        let eds := eg.2.takeWhile (fun c => (digitValAt 10 c).isSome)
        if eds = [] then 0
        else if eg.1 then -((digitsVal eds : ℤ)) else (digitsVal eds : ℤ)
      else 0
    let v := mant * (10 : ℚ) ^ ex
    some (if sg.1 then -v else v)

/-- Model of parseTime in src/components/ResultsView.tsx lines 62-71: an
empty string yields 0, one comma (if any) is turned into a dot, the string
is split on colons, fewer than three parts yields 0, and otherwise the
first three parts are parsed as floats and combined as hours, minutes and
seconds.  A NaN result (some part fails to parse) is modelled as none. -/
def parseTime (t : List Char) : Option ℚ :=
  if t = [] then some 0
  else
    match jsSplit [':'] (jsReplaceFirst [','] ['.'] t) with
    | p0 :: p1 :: p2 :: _ =>
      match jsParseFloat p0, jsParseFloat p1, jsParseFloat p2 with
      | some h, some m, some s => some (h * 3600 + m * 60 + s)
      | _, _, _ => none
    | _ => some 0

/-- The caption segment record of src/types.ts: id, start and end
timestamp strings, and the caption text. -/
structure CaptionSegment where
  id : ℤ
  startTime : List Char
  endTime : List Char
  text : List Char
deriving DecidableEq

/-- The arrow separator of SRT timestamp lines. -/
def arrowSep : List Char := (" --> ").toList

/-- Parse of one SRT block, the body of the forEach in parseSRT
(src/utils/fileUtils.ts lines 31-49): at least three lines, an id line
accepted by parseInt, a timestamp line with an arrow-separated nonempty
start and end, remaining lines joined by a space; none models a block
that pushes no segment. -/
def parseBlock (block : List Char) : Option CaptionSegment :=
  match jsSplit ['\n'] block with
  | l0 :: l1 :: l2 :: rest =>
    match jsParseInt l0, jsSplit arrowSep l1 with
    | some i, st :: en :: _ =>
      if st ≠ [] ∧ en ≠ [] then
        some ⟨i, trim st, trim en, trim (joinSep [' '] (l2 :: rest))⟩
      else none
    | _, _ => none
  | _ => none

/-- Model of parseSRT (src/utils/fileUtils.ts lines 25-52): normalize
carriage-return-newline pairs, split into blocks on blank lines, parse
each block, keep the successes in order. -/
def parseSRT (srt : List Char) : List CaptionSegment :=
  (jsSplit ['\n', '\n'] (jsReplaceAll ['\r', '\n'] ['\n'] srt)).filterMap parseBlock

/-- The serialized block of one segment, as produced by the template
literal in generateSRT. -/
def blockOf (s : CaptionSegment) : List Char :=
  intToString s.id ++ ('\n' :: ((s.startTime ++ arrowSep ++ s.endTime) ++ ('\n' :: s.text)))

/-- Model of generateSRT (src/utils/fileUtils.ts lines 54-58): serialize
each segment and join the blocks with blank lines. -/
def generateSRT (segs : List CaptionSegment) : List Char :=
  joinSep ['\n', '\n'] (segs.map blockOf)

/-- A parsed segment whose serialized block re-parses unambiguously: all
fields nonempty and trim-fixed, free of newlines, and the timestamp line
splits back into exactly the stored start and end. -/
def CleanSeg (s : CaptionSegment) : Prop :=
  s.startTime ≠ [] ∧ s.endTime ≠ [] ∧ s.text ≠ [] ∧
  trim s.startTime = s.startTime ∧ trim s.endTime = s.endTime ∧ trim s.text = s.text ∧
  '\n' ∉ s.startTime ∧ '\n' ∉ s.endTime ∧ '\n' ∉ s.text ∧
  jsSplit arrowSep (s.startTime ++ arrowSep ++ s.endTime) = [s.startTime, s.endTime]

instance (s : CaptionSegment) : Decidable (CleanSeg s) := by
  unfold CleanSeg
  infer_instance

/-!
Layout engine: getWrappedLines of src/components/ResultsView.tsx lines
312-412, with the canvas text measurer abstracted as a function
m : List Char → ℚ and the memo cache factored out (this is the cold-cache
computation; the cache itself is modelled separately below).
-/

/-- getRangeWidth of ResultsView lines 324-330 applied to a word slice:
the sum of the word widths plus one space width per gap. -/
def rangeWidth (m : List Char → ℚ) (spaceW : ℚ) (ws : List (List Char)) : ℚ :=
  (ws.map m).sum + ((ws.length - 1 : ℕ) : ℚ) * spaceW

/-- Validity of the two-line split at index i (ResultsView lines 346-354):
both halves within the word limit and both measured widths within
maxWidth. -/
def splitValid (m : List Char → ℚ) (spaceW maxWidth : ℚ) (vmw : ℕ)
    (words : List (List Char)) (i : ℕ) : Prop :=
  i ≤ vmw ∧ words.length - i ≤ vmw ∧
  rangeWidth m spaceW (words.take i) ≤ maxWidth ∧
  rangeWidth m spaceW (words.drop i) ≤ maxWidth

instance (m : List Char → ℚ) (spaceW maxWidth : ℚ) (vmw : ℕ)
    (words : List (List Char)) (i : ℕ) :
    Decidable (splitValid m spaceW maxWidth vmw words i) := by
  unfold splitValid
  infer_instance

/-- Width difference of the two-line split at index i (ResultsView line
355). -/
def splitDiff (m : List Char → ℚ) (spaceW : ℚ) (words : List (List Char)) (i : ℕ) : ℚ :=
  |rangeWidth m spaceW (words.take i) - rangeWidth m spaceW (words.drop i)|

/-- One iteration of the balanced-split search loop (ResultsView lines
346-361): skip invalid indices, else keep the first index of strictly
smallest width difference; none models bestSplit = -1 with minDiff
infinite. -/
def bestStep (m : List Char → ℚ) (spaceW maxWidth : ℚ) (vmw : ℕ)
    (words : List (List Char)) (acc : Option (ℕ × ℚ)) (i : ℕ) : Option (ℕ × ℚ) :=
  if splitValid m spaceW maxWidth vmw words i then
    match acc with
    | none => some (i, splitDiff m spaceW words i)
    | some (j, d) =>
      if splitDiff m spaceW words i < d then some (i, splitDiff m spaceW words i)
      else some (j, d)
  else acc

/-- The balanced-split search over i = 1 .. words.length - 1. -/
def bestSplit (m : List Char → ℚ) (spaceW maxWidth : ℚ) (vmw : ℕ)
    (words : List (List Char)) : Option (ℕ × ℚ) :=
  (List.range' 1 (words.length - 1)).foldl (bestStep m spaceW maxWidth vmw words) none

/-- Greedy wrap fallback (ResultsView lines 372-408), carried out on word
groups; the two break conditions are width overflow and word-count
overflow, and a word hitting overflow with an empty current line is kept
on that line (the degenerate over-long single word). -/
def greedyGroups (m : List Char → ℚ) (spaceW maxWidth : ℚ) (vmw : ℕ) :
    List (List Char) → List (List Char) → ℚ → List (List (List Char))
  | [], cur, _ => if cur = [] then [] else [cur]
  | w :: ws, cur, cw =>
    if (cur ≠ [] ∧ cw + spaceW + m w > maxWidth) ∨ vmw ≤ cur.length then
      if cur = [] then greedyGroups m spaceW maxWidth vmw ws [w] (m w)
      else cur :: greedyGroups m spaceW maxWidth vmw ws [w] (m w)
    else
      if cur = [] then greedyGroups m spaceW maxWidth vmw ws [w] (m w)
      else greedyGroups m spaceW maxWidth vmw ws (cur ++ [w]) (cw + spaceW + m w)

/-- getWrappedLines (ResultsView lines 312-412), cold cache: words are the
space-split of the text; try the single line, then the balanced two-line
split, then greedy wrapping. -/
def getWrappedLines (m : List Char → ℚ) (text : List Char) (maxWidth : ℚ)
    (vmw : ℕ) : List (List Char) :=
  if jsSplit [' '] text = [] then []
  else if rangeWidth m (m [' ']) (jsSplit [' '] text) ≤ maxWidth ∧
      (jsSplit [' '] text).length ≤ vmw then [text]
  else
    match bestSplit m (m [' ']) maxWidth vmw (jsSplit [' '] text) with
    | some (i, _) =>
      [joinSep [' '] ((jsSplit [' '] text).take i),
       joinSep [' '] ((jsSplit [' '] text).drop i)]
    | Option.none =>
      (greedyGroups m (m [' ']) maxWidth vmw (jsSplit [' '] text) [] 0).map (joinSep [' '])

/-- A good line of the greedy wrap: within the word limit and within the
width limit unless it is a single (over-long) word. -/
def GoodGroup (m : List Char → ℚ) (spaceW maxWidth : ℚ) (vmw : ℕ)
    (g : List (List Char)) : Prop :=
  g.length ≤ vmw ∧ (rangeWidth m spaceW g ≤ maxWidth ∨ g.length = 1)

/-- Loop invariant of the balanced-split search: over the indices scanned
so far, none is a no-valid-split state, and some carries the first valid
index of minimal width difference. -/
def ScanInv (m : List Char → ℚ) (spaceW maxWidth : ℚ) (vmw : ℕ)
    (words : List (List Char)) (S : List ℕ) (acc : Option (ℕ × ℚ)) : Prop :=
  match acc with
  | none => ∀ j ∈ S, ¬ splitValid m spaceW maxWidth vmw words j
  | some (i, d) => i ∈ S ∧ splitValid m spaceW maxWidth vmw words i ∧
      d = splitDiff m spaceW words i ∧
      ∀ j ∈ S, splitValid m spaceW maxWidth vmw words j →
        d ≤ splitDiff m spaceW words j

/-!
Animation logic of drawFrameToCanvas (ResultsView lines 449-519): each
kind maps the elapsed time since caption activation to an opacity, a 2-D
translation, a scale and a shadow blur.  Math.sin is abstracted as a
function parameter; canvas defaults (alpha 1, identity transform) are the
record defaults.
-/

inductive AnimKind
  | none | fade | slide | pop | bounce | glow | shake
deriving DecidableEq

/-- Net canvas state set by the animation branch: globalAlpha, translate
components, scale factor (pop scales about the caption anchor) and shadow
blur. -/
structure AnimFx where
  alpha : ℚ := 1
  tx : ℚ := 0
  ty : ℚ := 0
  scale : ℚ := 1
  shadowBlur : ℚ := 0
deriving DecidableEq

/-- Math.max(0, Math.min(1, elapsed / duration)) as in ResultsView. -/
def clampProgress (dur e : ℚ) : ℚ := max 0 (min 1 (e / dur))

/-- The five-segment piecewise yOffset of the bounce branch (ResultsView
lines 487-502). -/
def bounceYOffset (p : ℚ) : ℚ :=
  if p < 3/10 then -20 * (1 - p / (3/10))
  else if p < 1/2 then -10 * ((p - 3/10) / (1/5))
  else if p < 7/10 then -10 * (1 - (p - 1/2) / (1/5))
  else if p < 9/10 then -2 * ((p - 7/10) / (1/5))
  else -2 * (1 - (p - 9/10) / (1/10))

/-- The animation state machine of ResultsView lines 452-519 (durations
0.25s fade, 0.3s slide and pop, 0.6s bounce, 0.5s shake). -/
def animFx (sin : ℚ → ℚ) (width height : ℚ) (k : AnimKind) (elapsed : ℚ) : AnimFx :=
  match k with
  | .none => {}
  | .fade => { alpha := clampProgress (1/4) elapsed }
  | .slide =>
    let p := clampProgress (3/10) elapsed
    { alpha := p, ty := (1 - p) * (height * (5/100)) }
  | .pop =>
    let p := clampProgress (3/10) elapsed
    { alpha := p, scale := 1/2 + 1/2 * p }
  | .bounce =>
    let p := clampProgress (3/5) elapsed
    { alpha := if p < 3/10 then p / (3/10) else 1,
      ty := bounceYOffset p * (height / 1000) * 50 }
  | .glow =>
    let pulse := (sin (elapsed * 4) + 1) / 2
    { shadowBlur := (5 + pulse * 15) * (height / 1000) }
  | .shake =>
    let p := clampProgress (1/2) elapsed
    if p < 1 then
      { tx := (sin (p * 50) * (5 * (1 - p)) * (width / 1000)) * 5 }
    else {}

/-!
Layout cache and style state of ResultsView: textLayoutCache (line 115),
the style-change invalidation effect (lines 131-134), handleCaptionChange
(lines 136-139) and the cache-filling lookup at the top of
getWrappedLines (lines 313-314, 336, 368, 410).
-/

/-- The style parameters the cache-invalidation effect watches:
selectedFont, fontSize, visualMaxWords. -/
structure WrapStyle where
  font : ℕ
  fontSize : ℚ
  visualMaxWords : ℕ
deriving DecidableEq

/-- JS object-key lookup (first match). -/
def lookupC {α : Type} (key : ℤ) : List (ℤ × α) → Option α
  | [] => Option.none
  | (k, v) :: t => if k = key then some v else lookupC key t

/-- JS delete of an object key. -/
def eraseC {α : Type} (key : ℤ) : List (ℤ × α) → List (ℤ × α)
  | [] => []
  | (k, v) :: t => if k = key then eraseC key t else (k, v) :: eraseC key t

/-- handleCaptionChange's captions update (the map on line 137): replace
the text of every caption with the given id, keep the rest. -/
def editTexts (key : ℤ) (newText : List Char) :
    List (ℤ × List Char) → List (ℤ × List Char)
  | [] => []
  | (k, v) :: t =>
    (if k = key then (k, newText) else (k, v)) :: editTexts key newText t

/-- The mutable state relevant to the layout cache: the caption set, the
active style, and the cache. -/
structure CaptionsModel where
  captions : List (ℤ × List Char)
  style : WrapStyle
  cache : List (ℤ × List (List Char))
deriving DecidableEq

/-- The three cache-relevant events: a style change (the useEffect on
selectedFont, fontSize, visualMaxWords), a caption text edit
(handleCaptionChange), and a frame render that fills the cache for the
active caption (getWrappedLines). -/
inductive UiEvent
  | setStyle (s : WrapStyle)
  | editCaption (id : ℤ) (newText : List Char)
  | renderCaption (id : ℤ)

/-- The layout computed for a caption under a style: getWrappedLines with
the measurer induced by the style's font and size (abstract parameter
measureOf) and the style's word limit. -/
def layoutOf (measureOf : WrapStyle → List Char → ℚ) (maxWidth : ℚ)
    (sty : WrapStyle) (text : List Char) : List (List Char) :=
  getWrappedLines (measureOf sty) text maxWidth sty.visualMaxWords

/-- One event step: a style change replaces the style and clears the whole
cache (ResultsView lines 131-134); a text edit updates that caption's text
and deletes only that caption's cache entry (lines 136-139); a render
fills the cache for the rendered caption if absent (lines 313-314 with
336, 368, 410). -/
def stepEvent (measureOf : WrapStyle → List Char → ℚ) (maxWidth : ℚ)
    (st : CaptionsModel) : UiEvent → CaptionsModel
  | .setStyle s => { st with style := s, cache := [] }
  | .editCaption id t =>
    { st with captions := editTexts id t st.captions, cache := eraseC id st.cache }
  | .renderCaption id =>
    match lookupC id st.cache with
    | some _ => st
    | Option.none =>
      match lookupC id st.captions with
      | some text =>
        { st with cache := (id, layoutOf measureOf maxWidth st.style text) :: st.cache }
      | Option.none => st

/-- No stale entry: every cache entry is the layout of the entry's
caption's current text under the current style. -/
def Coherent (measureOf : WrapStyle → List Char → ℚ) (maxWidth : ℚ)
    (st : CaptionsModel) : Prop :=
  ∀ e ∈ st.cache,
    (lookupC e.1 st.captions).map (layoutOf measureOf maxWidth st.style) = some e.2

instance (measureOf : WrapStyle → List Char → ℚ) (maxWidth : ℚ)
    (st : CaptionsModel) : Decidable (Coherent measureOf maxWidth st) := by
  unfold Coherent
  infer_instance

/-!
Export flag and job model: handleFastExport (ResultsView lines 589-748)
and handleRealtimeExport (lines 750-847) both begin by setting the
isExporting flag and starting an encode job without testing the flag; the
only flag test is the disabled={isExporting} attribute on the export
button (line 1144).  finally blocks and the recorder onstop handler clear
the flag when the job ends.
-/

structure ExportModel where
  isExporting : Bool
  inFlight : ℕ
deriving DecidableEq

/-- The common body of both export handlers once their ref/support guards
pass: set the exporting flag and start an encode job.  Neither handler
tests isExporting. -/
def startExportJob (st : ExportModel) : ExportModel :=
  { isExporting := true, inFlight := st.inFlight + 1 }

/-- handleFastExport as invoked: a missing video/canvas ref aborts; with
refs present a job is started either on the WebCodecs path or, when
unsupported, on the realtime fallback path (both set the flag and start
recording). -/
def handleFastExport (refsOk supportOk : Bool) (st : ExportModel) : ExportModel :=
  if refsOk then
    if supportOk then startExportJob st else startExportJob st
  else st

/-- A click on the Export Video button: the button carries
disabled={isExporting}, so a click while the flag is set does nothing. -/
def clickExport (refsOk supportOk : Bool) (st : ExportModel) : ExportModel :=
  if st.isExporting then st else handleFastExport refsOk supportOk st

/-- Job completion (the finally block / recorder onstop): clear the flag. -/
def finishExportJob (st : ExportModel) : ExportModel :=
  { isExporting := false, inFlight := st.inFlight - 1 }

inductive ExpEvent
  | click (refsOk supportOk : Bool)
  | finish

def stepExport (st : ExportModel) : ExpEvent → ExportModel
  | .click r s => clickExport r s st
  | .finish => if st.inFlight = 0 then st else finishExportJob st

/-- Runs of the export UI from the initial idle state. -/
def runExport (evs : List ExpEvent) : ExportModel :=
  evs.foldl stepExport ⟨false, 0⟩

/-- Model of Math.round: floor of x + one half. -/
def jsRound (x : ℚ) : ℤ := ⌊x + 1/2⌋

/-- The forced key-frame condition of processFrame (ResultsView line 707):
keyFrame when t = 0 or Math.round(t * fps) % (2 * fps) = 0 (JS % is the
truncated remainder). -/
def keyFrameFlag (fps : ℕ) (t : ℚ) : Bool :=
  decide (t = 0) || decide ((jsRound (t * (fps : ℚ))).tmod (2 * (fps : ℤ)) = 0)

/-- The blocks parseSRT iterates over: blank-line split of the normalized
input. -/
def blocksOf (txt : List Char) : List (List Char) :=
  jsSplit ['\n', '\n'] (jsReplaceAll ['\r', '\n'] ['\n'] txt)

/-- A line that literally is an integer: optional sign and one or more
decimal digits, up to surrounding whitespace. -/
def integerLineB (l : List Char) : Bool :=
  match trim l with
  | '-' :: t => !t.isEmpty && t.all isDigitCh
  | '+' :: t => !t.isEmpty && t.all isDigitCh
  | t => !t.isEmpty && t.all isDigitCh

/-- A timestamp line with an arrow-separated pair of nonempty parts. -/
def arrowPairB (l : List Char) : Bool :=
  match jsSplit arrowSep l with
  | st :: en :: _ => !st.isEmpty && !en.isEmpty
  | _ => false

/-- The claim's literal notion of a well-formed block: an integer id line,
an arrow-separated timestamp line, and at least one text line. -/
def literalWellFormedBlock (b : List Char) : Bool :=
  decide (3 ≤ (jsSplit ['\n'] b).length) &&
  integerLineB ((jsSplit ['\n'] b).headD []) &&
  arrowPairB ((jsSplit ['\n'] b).getD 1 [])

/-- The claim's literal notion of a well-formed subtitle text: every block
is well-formed. -/
def wellFormedSRT (txt : List Char) : Bool :=
  (blocksOf txt).all literalWellFormedBlock

/-- What the code actually drops: fewer than three lines, an id line on
which parseInt fails, or a timestamp line without an arrow-separated pair
of nonempty parts. -/
def codeMalformedBlock (b : List Char) : Bool :=
  match jsSplit ['\n'] b with
  | l0 :: l1 :: _ :: _ =>
    (jsParseInt l0).isNone ||
    (match jsSplit arrowSep l1 with
     | st :: en :: _ => st.isEmpty || en.isEmpty
     | _ => true)
  | _ => true

/-- All parsed segments re-serialize unambiguously (the hypothesis of the
amended round-trip claim), as a single decidable proposition. -/
def allClean (segs : List CaptionSegment) : Prop := ∀ s ∈ segs, CleanSeg s

instance (segs : List CaptionSegment) : Decidable (allClean segs) := by
  unfold allClean
  infer_instance

/-- Invariant of the export UI: at most one job in flight, and no job in
flight when the flag is clear. -/
def ExpInv (st : ExportModel) : Prop :=
  st.inFlight ≤ 1 ∧ (st.isExporting = false → st.inFlight = 0)

/-- A well-formed input on which the round-trip fails: the first block has
an integer id line, an arrow-separated timestamp line and one
(whitespace-only) text line, so its parsed text is empty; the serialized
block then ends in a newline, the following blank-line separator merges
into a triple newline, and re-parsing drops both segments. -/
def c1BadInput : List Char :=
  ("1\n00:00:01,000 --> 00:00:02,000\n \n\n2\n00:00:03,000 --> 00:00:04,000\nhi").toList

/-- A concrete well-formed two-segment input for the amended round trip. -/
def c1GoodInput : List Char :=
  ("1\n00:00:01,000 --> 00:00:02,000\nHello world\n\n2\n00:00:03,000 --> 00:00:04,000\nBye").toList

/-- A subtitle text whose (single) segment uses dots as millisecond
separators. -/
def c6DotInput : List Char := ("1\n00:00:01.000 --> 00:00:02.000\nhi").toList

/-- A block whose id line "12abc" is not an integer. -/
def c7Block : List Char := ("12abc\n00:00:01,000 --> 00:00:02,000\nhi").toList

/-- An input with one good block and one malformed block. -/
def c7Mixed : List Char := ("1\n00:00:01,000 --> 00:00:02,000\nok\n\nnope").toList

/-- Concrete measuring function (character count) for witnesses. -/
def lenMeasure : List Char → ℚ := fun w => (w.length : ℚ)

/-- The style-dependent measurer used in the cache witnesses. -/
def c4Measure : WrapStyle → List Char → ℚ := fun _ => lenMeasure

def c4Style : WrapStyle := ⟨0, 5, 100⟩

/-- Two captions, no cache yet. -/
def c4State0 : CaptionsModel :=
  ⟨[(1, ("hello").toList), (2, ("world").toList)], c4Style, []⟩

/-- Both captions rendered: the cache holds both layouts. -/
def c4State1 : CaptionsModel :=
  stepEvent c4Measure 100 (stepEvent c4Measure 100 c4State0 (UiEvent.renderCaption 1))
    (UiEvent.renderCaption 2)

/-- Caption 1's text edited. -/
def c4State2 : CaptionsModel :=
  stepEvent c4Measure 100 c4State1 (UiEvent.editCaption 1 (("hey").toList))

theorem jsSplitGo_ne_nil (sep : List Char) :
    ∀ (skip : ℕ) (xs : List Char), jsSplitGo sep skip xs ≠ [] := by
  intro skip xs
  induction xs generalizing skip with
  | nil => simp [jsSplitGo]
  | cons x rest ih =>
    cases skip with
    | succ k => simpa [jsSplitGo] using ih k
    | zero =>
      by_cases h : sep ≠ [] ∧ leadsWith sep (x :: rest)
      · simp [jsSplitGo, h]
      · simp only [jsSplitGo, if_neg h]
        cases hrec : jsSplitGo sep 0 rest with
        | nil => simp
        | cons l ls => simp

theorem jsSplit_ne_nil (sep xs : List Char) : jsSplit sep xs ≠ [] :=
  jsSplitGo_ne_nil sep 0 xs

theorem joinSep_cons (sep : List Char) (a : List Char) (ls : List (List Char))
    (h : ls ≠ []) : joinSep sep (a :: ls) = a ++ sep ++ joinSep sep ls := by
  cases ls with
  | nil => exact absurd rfl h
  | cons b bs => rfl

theorem leadsWith_single (c x : Char) (xs : List Char) :
    leadsWith [c] (x :: xs) = decide (c = x) := by
  simp [leadsWith]

/-- Splitting on a single character c, with c not occurring in the chunk
before the first occurrence. -/
theorem jsSplit_single_append (c : Char) (a r : List Char) (h : c ∉ a) :
    jsSplit [c] (a ++ c :: r) = a :: jsSplit [c] r := by
  induction a with
  | nil =>
    show jsSplitGo [c] 0 (c :: r) = [] :: jsSplitGo [c] 0 r
    simp [jsSplitGo, leadsWith]
  | cons x a' ih =>
    have hx : ¬ (x = c) := fun hxc => h (by simp [hxc])
    have hxc : ¬ (c = x) := fun hcx => hx hcx.symm
    have ha' : c ∉ a' := fun hm => h (List.mem_cons_of_mem _ hm)
    show jsSplitGo [c] 0 (x :: (a' ++ c :: r)) = (x :: a') :: jsSplit [c] r
    have hcond : ¬ ([c] ≠ [] ∧ leadsWith [c] (x :: (a' ++ c :: r)) = true) := by
      simp [leadsWith, hxc]
    simp only [jsSplitGo, if_neg hcond]
    have := ih ha'
    have hrw : jsSplitGo [c] 0 (a' ++ c :: r) = a' :: jsSplit [c] r := this
    rw [hrw]

theorem jsSplit_single_of_not_mem (c : Char) (s : List Char) (h : c ∉ s) :
    jsSplit [c] s = [s] := by
  induction s with
  | nil => rfl
  | cons x rest ih =>
    have hx : ¬ (c = x) := fun hcx => h (by simp [hcx])
    have hrest : c ∉ rest := fun hm => h (List.mem_cons_of_mem _ hm)
    show jsSplitGo [c] 0 (x :: rest) = [x :: rest]
    have hcond : ¬ ([c] ≠ [] ∧ leadsWith [c] (x :: rest) = true) := by
      simp [leadsWith, hx]
    simp only [jsSplitGo, if_neg hcond]
    have hrw : jsSplitGo [c] 0 rest = [rest] := ih hrest
    rw [hrw]

/-- Chunks produced by splitting on a single character never contain it. -/
theorem jsSplit_single_chunks (c : Char) (s : List Char) :
    ∀ ch ∈ jsSplit [c] s, c ∉ ch := by
  induction s with
  | nil =>
    intro ch hch
    simp [jsSplit, jsSplitGo] at hch
    simp [hch]
  | cons x rest ih =>
    intro ch hch
    by_cases hx : c = x
    · have : jsSplit [c] (x :: rest) = [] :: jsSplit [c] rest := by
        show jsSplitGo [c] 0 (x :: rest) = [] :: jsSplitGo [c] 0 rest
        simp [jsSplitGo, leadsWith, hx]
      rw [this] at hch
      rcases List.mem_cons.mp hch with hch | hch
      · simp [hch]
      · exact ih ch hch
    · have hcond : ¬ ([c] ≠ [] ∧ leadsWith [c] (x :: rest) = true) := by
        simp [leadsWith, hx]
      have hsplit : jsSplit [c] (x :: rest) =
          match jsSplit [c] rest with
          | [] => [[x]]
          | l :: ls => (x :: l) :: ls := by
        show jsSplitGo [c] 0 (x :: rest) = _
        simp only [jsSplitGo, if_neg hcond]
        rfl
      rcases hrec : jsSplit [c] rest with _ | ⟨l, ls⟩
      · exact absurd hrec (jsSplit_ne_nil [c] rest)
      · rw [hsplit, hrec] at hch
        rcases List.mem_cons.mp hch with hch | hch
        · subst hch
          intro hmem
          rcases List.mem_cons.mp hmem with h1 | h1
          · exact hx h1
          · exact ih l (by rw [hrec]; exact List.mem_cons_self l ls) h1
        · exact ih ch (by rw [hrec]; exact List.mem_cons_of_mem l hch)

/-- Joining the chunks of a single-character split restores the string. -/
theorem joinSep_jsSplit_single (c : Char) (s : List Char) :
    joinSep [c] (jsSplit [c] s) = s := by
  induction s with
  | nil => rfl
  | cons x rest ih =>
    by_cases hx : c = x
    · have hsplit : jsSplit [c] (x :: rest) = [] :: jsSplit [c] rest := by
        show jsSplitGo [c] 0 (x :: rest) = [] :: jsSplitGo [c] 0 rest
        simp [jsSplitGo, leadsWith, hx]
      rw [hsplit, joinSep_cons [c] [] (jsSplit [c] rest) (jsSplit_ne_nil [c] rest), ih]
      simp [hx]
    · have hcond : ¬ ([c] ≠ [] ∧ leadsWith [c] (x :: rest) = true) := by
        simp [leadsWith, hx]
      rcases hrec : jsSplit [c] rest with _ | ⟨l, ls⟩
      · exact absurd hrec (jsSplit_ne_nil [c] rest)
      · have hsplit : jsSplit [c] (x :: rest) = (x :: l) :: ls := by
          show jsSplitGo [c] 0 (x :: rest) = _
          simp only [jsSplitGo, if_neg hcond]
          rw [show jsSplitGo [c] 0 rest = l :: ls from hrec]
        rw [hsplit]
        rw [hrec] at ih
        cases ls with
        | nil =>
          have hl : l = rest := by simpa [joinSep] using ih
          simp [joinSep, hl]
        | cons l2 ls2 =>
          rw [joinSep_cons [c] (x :: l) (l2 :: ls2) (by simp)]
          rw [joinSep_cons [c] l (l2 :: ls2) (by simp)] at ih
          simpa using ih

/-- Splitting the join of nonempty-separator-free groups restores the
groups. -/
theorem jsSplit_joinSep_single (c : Char) (gs : List (List Char))
    (h : ∀ g ∈ gs, c ∉ g) (hne : gs ≠ []) :
    jsSplit [c] (joinSep [c] gs) = gs := by
  induction gs with
  | nil => exact absurd rfl hne
  | cons g gs' ih =>
    cases gs' with
    | nil =>
      show jsSplit [c] g = [g]
      exact jsSplit_single_of_not_mem c g (h g (by simp))
    | cons g2 gs'' =>
      rw [joinSep_cons [c] g (g2 :: gs'') (by simp)]
      have hg : c ∉ g := h g (by simp)
      have hrest : ∀ g' ∈ g2 :: gs'', c ∉ g' := fun g' hg' =>
        h g' (List.mem_cons_of_mem _ hg')
      have : g ++ [c] ++ joinSep [c] (g2 :: gs'') =
          g ++ c :: joinSep [c] (g2 :: gs'') := by simp
      rw [this, jsSplit_single_append c g _ hg, ih hrest (by simp)]

theorem pairFree_nil (p q : Char) : pairFree p q [] := trivial

theorem pairFree_single (p q x : Char) : pairFree p q [x] := trivial

theorem pairFree_cons (p q a : Char) (b : Char) (t : List Char)
    (h1 : ¬(a = p ∧ b = q)) (h2 : pairFree p q (b :: t)) :
    pairFree p q (a :: b :: t) := ⟨h1, h2⟩

theorem pairFree_tail (p q a : Char) (t : List Char)
    (h : pairFree p q (a :: t)) : pairFree p q t := by
  cases t with
  | nil => trivial
  | cons b t' => exact h.2

theorem pairFree_head (p q a b : Char) (t : List Char)
    (h : pairFree p q (a :: b :: t)) : ¬(a = p ∧ b = q) := h.1

/-- A list not containing q anywhere has no adjacent (p, q) pair. -/
theorem pairFree_of_not_mem_right (p q : Char) (s : List Char) (h : q ∉ s) :
    pairFree p q s := by
  induction s with
  | nil => trivial
  | cons a t ih =>
    cases t with
    | nil => trivial
    | cons b t' =>
      refine ⟨fun hab => h (by simp [hab.2]), ?_⟩
      exact ih (fun hm => h (List.mem_cons_of_mem _ hm))

/-- Appending preserves pair-freeness when the seam is not a (p, q) pair. -/
theorem pairFree_append (p q : Char) (a b : List Char)
    (ha : pairFree p q a) (hb : pairFree p q b)
    (hseam : ∀ x, a.getLast? = some x → ∀ y, b.head? = some y → ¬(x = p ∧ y = q)) :
    pairFree p q (a ++ b) := by
  induction a with
  | nil => simpa using hb
  | cons c a' ih =>
    cases a' with
    | nil =>
      cases b with
      | nil => trivial
      | cons y b' =>
        refine ⟨hseam c rfl y rfl, ?_⟩
        simpa using hb
    | cons d a'' =>
      refine ⟨ha.1, ?_⟩
      exact ih (pairFree_tail p q c _ ha) (by
        intro x hx y hy
        exact hseam x (by simpa using hx) y hy)

/-- Splitting on a two-character separator that has no occurrence. -/
theorem jsSplit_pair_of_pairFree (p q : Char) (s : List Char)
    (h : pairFree p q s) : jsSplit [p, q] s = [s] := by
  induction s with
  | nil => rfl
  | cons x rest ih =>
    have hcond : ¬ ([p, q] ≠ [] ∧ leadsWith [p, q] (x :: rest) = true) := by
      intro hc
      rcases hc with ⟨-, hlead⟩
      cases rest with
      | nil => simp [leadsWith] at hlead
      | cons y rest' =>
        simp [leadsWith] at hlead
        exact pairFree_head p q x y rest' h ⟨hlead.1.symm, hlead.2.symm⟩
    show jsSplitGo [p, q] 0 (x :: rest) = [x :: rest]
    simp only [jsSplitGo, if_neg hcond]
    have hrw : jsSplitGo [p, q] 0 rest = [rest] := ih (pairFree_tail p q x rest h)
    rw [hrw]

/-- Splitting b ++ [p, q] ++ r on [p, q] where b contains no occurrence:
the first cut is exactly after b. -/
theorem jsSplit_pair_append (p q : Char) (b r : List Char)
    (hfree : pairFree p q b)
    (hlast : p = q → b.getLast? ≠ some p) :
    jsSplit [p, q] (b ++ p :: q :: r) = b :: jsSplit [p, q] r := by
  induction b with
  | nil =>
    show jsSplitGo [p, q] 0 (p :: q :: r) = [] :: jsSplitGo [p, q] 0 r
    simp [jsSplitGo, leadsWith]
  | cons x b' ih =>
    have hcond : ¬ ([p, q] ≠ [] ∧ leadsWith [p, q] (x :: (b' ++ p :: q :: r)) = true) := by
      intro hc
      rcases hc with ⟨-, hlead⟩
      cases b' with
      | nil =>
        simp [leadsWith] at hlead
        refine hlast hlead.2.symm ?_
        simp
        exact hlead.1.symm
      | cons y b'' =>
        simp [leadsWith] at hlead
        exact pairFree_head p q x y b'' hfree ⟨hlead.1.symm, hlead.2.symm⟩
    show jsSplitGo [p, q] 0 (x :: (b' ++ p :: q :: r)) = (x :: b') :: jsSplit [p, q] r
    simp only [jsSplitGo, if_neg hcond]
    have ihh : jsSplitGo [p, q] 0 (b' ++ p :: q :: r) = b' :: jsSplit [p, q] r := by
      refine ih (pairFree_tail p q x b' hfree) ?_
      intro hpq hl
      cases b' with
      | nil => simp at hl
      | cons z b'' =>
        refine hlast hpq ?_
        have : (x :: z :: b'').getLast? = (z :: b'').getLast? := by
          simp [List.getLast?_cons_cons]
        rw [this]
        exact hl
    rw [ihh]

/-- Splitting the [p, q]-join of blocks that contain no (p, q) pair and do
not end in p when p = q restores the blocks. -/
theorem jsSplit_pair_joinSep (p q : Char) (bs : List (List Char))
    (h : ∀ b ∈ bs, pairFree p q b ∧ (p = q → b.getLast? ≠ some p))
    (hne : bs ≠ []) :
    jsSplit [p, q] (joinSep [p, q] bs) = bs := by
  induction bs with
  | nil => exact absurd rfl hne
  | cons b bs' ih =>
    cases bs' with
    | nil =>
      show jsSplit [p, q] b = [b]
      exact jsSplit_pair_of_pairFree p q b (h b (by simp)).1
    | cons b2 bs'' =>
      rw [joinSep_cons [p, q] b (b2 :: bs'') (by simp)]
      have hb := h b (by simp)
      have : b ++ [p, q] ++ joinSep [p, q] (b2 :: bs'') =
          b ++ p :: q :: joinSep [p, q] (b2 :: bs'') := by simp
      rw [this, jsSplit_pair_append p q b _ hb.1 hb.2]
      rw [ih (fun b' hb' => h b' (List.mem_cons_of_mem _ hb')) (by simp)]

/-- The join of blocks by the pair [c, c] is (p, q)-pair-free when each
block is, provided block seams cannot create the pair. -/
theorem pairFree_joinSep_pair (p q c : Char) (bs : List (List Char))
    (hc1 : ¬(c = p ∧ c = q))
    (h : ∀ b ∈ bs, pairFree p q b ∧
      (∀ x, b.getLast? = some x → ¬(x = p ∧ c = q)) ∧
      (∀ y, b.head? = some y → ¬(c = p ∧ y = q))) :
    pairFree p q (joinSep [c, c] bs) := by
  induction bs with
  | nil => trivial
  | cons b bs' ih =>
    cases bs' with
    | nil => exact (h b (by simp)).1
    | cons b2 bs'' =>
      rw [joinSep_cons [c, c] b (b2 :: bs'') (by simp)]
      have hb := h b (by simp)
      have hrest : pairFree p q (joinSep [c, c] (b2 :: bs'')) :=
        ih (fun b' hb' => h b' (List.mem_cons_of_mem _ hb'))
      have hmid : pairFree p q ([c, c] ++ joinSep [c, c] (b2 :: bs'')) := by
        refine pairFree_append p q [c, c] _ ?_ hrest ?_
        · exact ⟨hc1, trivial⟩
        · intro x hx y hy
          have hx0 : c = x := by simpa using hx
          subst hx0
          have hb2 := h b2 (by simp)
          have hhead : (joinSep [c, c] (b2 :: bs'')).head? = b2.head? ∨ b2 = [] := by
            cases b2 with
            | nil => right; rfl
            | cons z b2' =>
              left
              cases bs'' with
              | nil => rfl
              | cons b3 bs''' =>
                rw [joinSep_cons [c, c] (z :: b2') (b3 :: bs''') (by simp)]
                simp
          rcases hhead with hh | hh
          · exact hb2.2.2 y (by rw [← hh]; exact hy)
          · subst hh
            cases bs'' with
            | nil => simp [joinSep] at hy
            | cons b3 bs''' =>
              rw [show joinSep [c, c] ([] :: b3 :: bs''') =
                  [] ++ [c, c] ++ joinSep [c, c] (b3 :: bs''') from
                  joinSep_cons [c, c] [] (b3 :: bs''') (by simp)] at hy
              simp at hy
              subst hy
              exact hc1
      rw [List.append_assoc]
      refine pairFree_append p q b _ hb.1 hmid ?_
      intro x hx y hy
      have hy0 : c = y := by simpa using hy
      subst hy0
      exact hb.2.1 x hx

/-- If the pattern never occurs (as a [p, q] adjacency), global replace is
the identity. -/
theorem jsReplaceAll_pair_of_pairFree (p q : Char) (rep s : List Char)
    (h : pairFree p q s) : jsReplaceAll [p, q] rep s = s := by
  unfold jsReplaceAll
  rw [jsSplit_pair_of_pairFree p q s h]
  rfl

/-- Replace-first is the identity when the single-character pattern head
never occurs. -/
theorem jsReplaceFirst_of_not_mem (c : Char) (rep s : List Char) (h : c ∉ s) :
    jsReplaceFirst [c] rep s = s := by
  induction s with
  | nil => rfl
  | cons x rest ih =>
    have hx : ¬ (c = x) := fun hcx => h (by simp [hcx])
    have hcond : ¬ ([c] ≠ [] ∧ leadsWith [c] (x :: rest) = true) := by
      simp [leadsWith, hx]
    show jsReplaceFirst [c] rep (x :: rest) = x :: rest
    simp only [jsReplaceFirst, if_neg hcond]
    rw [ih (fun hm => h (List.mem_cons_of_mem _ hm))]

/-- Replace-first rewrites exactly the first occurrence of the character. -/
theorem jsReplaceFirst_append (c : Char) (rep a r : List Char) (h : c ∉ a) :
    jsReplaceFirst [c] rep (a ++ c :: r) = a ++ rep ++ r := by
  induction a with
  | nil =>
    show jsReplaceFirst [c] rep (c :: r) = rep ++ r
    simp [jsReplaceFirst, leadsWith]
  | cons x a' ih =>
    have hx : ¬ (c = x) := fun hcx => h (by simp [hcx])
    have hcond : ¬ ([c] ≠ [] ∧ leadsWith [c] (x :: (a' ++ c :: r)) = true) := by
      simp [leadsWith, hx]
    show jsReplaceFirst [c] rep (x :: (a' ++ c :: r)) = (x :: a') ++ rep ++ r
    simp only [jsReplaceFirst, if_neg hcond]
    rw [ih (fun hm => h (List.mem_cons_of_mem _ hm))]
    simp

theorem trimLeft_length_le (l : List Char) : (trimLeft l).length ≤ l.length :=
  (List.dropWhile_suffix Char.isWhitespace).length_le

theorem trim_length_le (l : List Char) : (trim l).length ≤ l.length := by
  unfold trim
  calc (trimLeft ((trimLeft l.reverse).reverse)).length
      ≤ (trimLeft l.reverse).reverse.length := trimLeft_length_le _
    _ = (trimLeft l.reverse).length := List.length_reverse _
    _ ≤ l.reverse.length := trimLeft_length_le _
    _ = l.length := List.length_reverse _

/-- A trim-fixed nonempty string ends in a non-whitespace character. -/
theorem trim_fixed_getLast? (l : List Char) (h : trim l = l)
    (x : Char) (hx : l.getLast? = some x) : ¬ x.isWhitespace := by
  intro hws
  have hne : l ≠ [] := by
    intro hnil
    rw [hnil] at hx
    simp at hx
  obtain ⟨a, ha⟩ := List.getLast?_eq_some_iff.mp hx
  have hrev : l.reverse = x :: a.reverse := by rw [ha]; simp
  have h1 : trimLeft l.reverse = trimLeft a.reverse := by
    rw [hrev]
    simp [trimLeft, List.dropWhile_cons, hws]
  have hlen : (trim l).length < l.length := by
    unfold trim
    rw [h1]
    calc (trimLeft (trimLeft a.reverse).reverse).length
        ≤ (trimLeft a.reverse).reverse.length := trimLeft_length_le _
      _ = (trimLeft a.reverse).length := List.length_reverse _
      _ ≤ a.reverse.length := trimLeft_length_le _
      _ = a.length := List.length_reverse _
      _ < l.length := by rw [ha]; simp
  rw [h] at hlen
  exact lt_irrefl _ hlen

theorem digitChar10_val (d : ℕ) (h : d < 10) :
    digitValAt 10 (digitChar10 d) = some d := by
  interval_cases d <;> decide

theorem digitChar10_not_ws (d : ℕ) (h : d < 10) :
    (digitChar10 d).isWhitespace = false := by
  interval_cases d <;> decide

theorem digitChar10_ne_signs (d : ℕ) (h : d < 10) :
    digitChar10 d ≠ '-' ∧ digitChar10 d ≠ '+' ∧
    digitChar10 d ≠ 'x' ∧ digitChar10 d ≠ 'X' ∧
    digitChar10 d ≠ '\n' ∧ digitChar10 d ≠ '\r' := by
  interval_cases d <;> decide

theorem natDigitsRev_spec : ∀ (f n : ℕ), n ≤ f →
    revVal (natDigitsRev f n) = n ∧ (∀ d ∈ natDigitsRev f n, d < 10) ∧
    natDigitsRev f n ≠ [] := by
  intro f
  induction f with
  | zero =>
    intro n hn
    have h0 : n = 0 := Nat.le_zero.mp hn
    subst h0
    refine ⟨rfl, ?_, by simp [natDigitsRev]⟩
    intro d hd
    simp [natDigitsRev] at hd
    omega
  | succ f ih =>
    intro n hn
    by_cases h10 : n < 10
    · refine ⟨?_, ?_, by simp [natDigitsRev, h10]⟩
      · simp [natDigitsRev, h10, revVal]
      · intro d hd
        simp [natDigitsRev, h10] at hd
        omega
    · have hdiv : n / 10 ≤ f := by omega
      obtain ⟨ihv, ihd, ihne⟩ := ih (n / 10) hdiv
      refine ⟨?_, ?_, by simp [natDigitsRev, h10]⟩
      · simp only [natDigitsRev, if_neg h10, revVal]
        rw [ihv]
        omega
      · intro d hd
        simp only [natDigitsRev, if_neg h10, List.mem_cons] at hd
        rcases hd with hd | hd
        · omega
        · exact ihd d hd

theorem foldl_msd_reverse : ∀ (l : List ℕ) (a : ℕ),
    List.foldl (fun x d => x * 10 + d) a l.reverse = a * 10 ^ l.length + revVal l := by
  intro l
  induction l with
  | nil => intro a; simp [revVal]
  | cons d t ih =>
    intro a
    rw [List.reverse_cons, List.foldl_append, ih]
    simp only [List.foldl, revVal, List.length_cons]
    ring

theorem foldl_digit_map (l : List ℕ) (h : ∀ d ∈ l, d < 10) :
    ∀ a : ℕ, List.foldl (fun x c => x * 10 + ((digitValAt 10 c).getD 0)) a
      (l.map digitChar10) = List.foldl (fun x d => x * 10 + d) a l := by
  induction l with
  | nil => intro a; rfl
  | cons d t ih =>
    intro a
    simp only [List.map_cons, List.foldl]
    rw [digitChar10_val d (h d (by simp))]
    exact ih (fun d' hd' => h d' (List.mem_cons_of_mem _ hd')) _

theorem takeWhile_eq_self_of_all {α : Type} (p : α → Bool) :
    ∀ (l : List α), (∀ x ∈ l, p x = true) → l.takeWhile p = l := by
  intro l
  induction l with
  | nil => intro _; rfl
  | cons x t ih =>
    intro h
    simp only [List.takeWhile_cons, h x (by simp), if_pos]
    rw [ih (fun y hy => h y (List.mem_cons_of_mem _ hy))]

/-- Every character of the printed form of a natural number is a decimal
digit character. -/
theorem natToString_mem (n : ℕ) :
    ∀ ch ∈ natToString n, ∃ d, d < 10 ∧ ch = digitChar10 d := by
  intro ch hch
  unfold natToString at hch
  obtain ⟨d, hd, hchd⟩ := List.mem_map.mp hch
  exact ⟨d, (natDigitsRev_spec n n le_rfl).2.1 d (List.mem_reverse.mp hd), hchd.symm⟩

theorem natToString_ne_nil (n : ℕ) : natToString n ≠ [] := by
  unfold natToString
  intro h
  have := (natDigitsRev_spec n n le_rfl).2.2
  simp at h
  exact this h

theorem natToString_shape (n : ℕ) :
    ∃ d0 lt, d0 < 10 ∧ (∀ d ∈ lt, d < 10) ∧
      natToString n = digitChar10 d0 :: lt.map digitChar10 ∧
      List.foldl (fun x d => x * 10 + d) 0 (d0 :: lt) = n := by
  obtain ⟨hval, hdig, hne⟩ := natDigitsRev_spec n n le_rfl
  obtain ⟨d0, lt, hlt⟩ := List.exists_cons_of_ne_nil
    (by simpa using hne : (natDigitsRev n n).reverse ≠ [])
  have hldig : ∀ d ∈ (natDigitsRev n n).reverse, d < 10 := fun d hd =>
    hdig d (List.mem_reverse.mp hd)
  refine ⟨d0, lt, hldig d0 (by rw [hlt]; simp), ?_, ?_, ?_⟩
  · intro d hd
    exact hldig d (by rw [hlt]; exact List.mem_cons_of_mem _ hd)
  · unfold natToString
    rw [hlt]
    rfl
  · rw [← hlt, foldl_msd_reverse]
    simp [hval]

theorem jsParseIntDigits_map (l : List ℕ) (hne : l ≠ []) (hd : ∀ d ∈ l, d < 10) :
    jsParseIntDigits 10 (l.map digitChar10) =
      some (List.foldl (fun x d => x * 10 + d) 0 l) := by
  unfold jsParseIntDigits
  have htake : List.takeWhile (fun c => (digitValAt 10 c).isSome) (l.map digitChar10) =
      l.map digitChar10 := by
    refine takeWhile_eq_self_of_all _ _ ?_
    intro x hx
    obtain ⟨d, hdm, hdx⟩ := List.mem_map.mp hx
    rw [← hdx, digitChar10_val d (hd d hdm)]
    rfl
  rw [htake]
  rw [if_neg (by simpa using hne)]
  rw [foldl_digit_map l hd 0]

theorem jsParseIntBody_natToString (n : ℕ) : jsParseIntBody (natToString n) = some n := by
  obtain ⟨d0, lt, hd0, hlt10, hshape, hfold⟩ := natToString_shape n
  unfold jsParseIntBody
  rw [hshape]
  have hhex : ¬ ((digitChar10 d0 :: lt.map digitChar10).head? = some '0' ∧
      ((digitChar10 d0 :: lt.map digitChar10).tail.head? = some 'x' ∨
       (digitChar10 d0 :: lt.map digitChar10).tail.head? = some 'X')) := by
    intro hc
    rcases hc with ⟨-, hx⟩
    simp only [List.tail_cons] at hx
    cases lt with
    | nil => simp at hx
    | cons d1 lt' =>
      have hd1 : d1 < 10 := hlt10 d1 (by simp)
      have hs1 := digitChar10_ne_signs d1 hd1
      simp at hx
      rcases hx with hx | hx
      · exact hs1.2.2.1 hx
      · exact hs1.2.2.2.1 hx
  rw [if_neg hhex]
  have : digitChar10 d0 :: lt.map digitChar10 = (d0 :: lt).map digitChar10 := rfl
  rw [this, jsParseIntDigits_map (d0 :: lt) (by simp) ?hall, hfold]
  case hall =>
    intro d hdm
    rcases List.mem_cons.mp hdm with h | h
    · rw [h]; exact hd0
    · exact hlt10 d h

/-- JS parseInt recovers a natural number from its printed form. -/
theorem jsParseInt_natToString (n : ℕ) :
    jsParseInt (natToString n) = some (n : ℤ) := by
  obtain ⟨d0, lt, hd0, hlt10, hshape, hfold⟩ := natToString_shape n
  have hsigns := digitChar10_ne_signs d0 hd0
  unfold jsParseInt
  rw [hshape]
  have hdw : List.dropWhile Char.isWhitespace (digitChar10 d0 :: lt.map digitChar10) =
      digitChar10 d0 :: lt.map digitChar10 := by
    rw [List.dropWhile_cons_of_neg]
    simp [digitChar10_not_ws d0 hd0]
  rw [hdw]
  rw [if_neg (by simp [hsigns.1])]
  rw [if_neg (by simp [hsigns.2.1])]
  rw [show digitChar10 d0 :: lt.map digitChar10 = natToString n from hshape.symm]
  rw [jsParseIntBody_natToString n]
  rfl

/-- JS parseInt recovers an integer from its printed form (the id
round-trip used by the SRT serializer). -/
theorem jsParseInt_intToString (i : ℤ) :
    jsParseInt (intToString i) = some i := by
  by_cases hi : i < 0
  · unfold intToString
    rw [if_pos hi]
    unfold jsParseInt
    have hdw : List.dropWhile Char.isWhitespace ('-' :: natToString i.natAbs) =
        '-' :: natToString i.natAbs := by
      rw [List.dropWhile_cons_of_neg]
      decide
    rw [hdw]
    rw [if_pos (by simp)]
    simp only [List.tail_cons]
    rw [jsParseIntBody_natToString i.natAbs]
    have habs : (-(i.natAbs : ℤ)) = i := by omega
    simp [habs, abs_of_neg hi]
  · unfold intToString
    rw [if_neg hi]
    rw [jsParseInt_natToString i.natAbs]
    congr 1
    omega

theorem mem_of_head?_some {α : Type} {l : List α} {y : α} (h : l.head? = some y) :
    y ∈ l := by
  cases l with
  | nil => simp at h
  | cons a t =>
    simp at h
    simp [h]

theorem mem_of_getLast?_some {α : Type} {l : List α} {x : α} (h : l.getLast? = some x) :
    x ∈ l := by
  obtain ⟨hne, hx⟩ := List.mem_getLast?_eq_getLast (show x ∈ l.getLast? from h)
  rw [hx]
  exact List.getLast_mem hne

/-- Every character of the printed form of an integer is a minus sign or a
decimal digit character. -/
theorem intToString_chars (i : ℤ) :
    ∀ ch ∈ intToString i, ch = '-' ∨ ∃ d, d < 10 ∧ ch = digitChar10 d := by
  intro ch hch
  unfold intToString at hch
  by_cases hi : i < 0
  · rw [if_pos hi] at hch
    rcases List.mem_cons.mp hch with hch | hch
    · exact Or.inl hch
    · exact Or.inr (natToString_mem _ ch hch)
  · rw [if_neg hi] at hch
    exact Or.inr (natToString_mem _ ch hch)

theorem intToString_no_lf_cr (i : ℤ) :
    '\n' ∉ intToString i ∧ '\r' ∉ intToString i := by
  constructor <;>
  · intro hm
    rcases intToString_chars i _ hm with hc | ⟨d, hd, hc⟩
    · exact absurd hc.symm (by decide)
    · have := digitChar10_ne_signs d hd
      first
      | exact this.2.2.2.2.1 hc.symm
      | exact this.2.2.2.2.2 hc.symm

theorem intToString_getLast_ne (i : ℤ) (x : Char)
    (hx : (intToString i).getLast? = some x) : x ≠ '\n' ∧ x ≠ '\r' := by
  have hmem := mem_of_getLast?_some hx
  have := intToString_no_lf_cr i
  constructor <;> intro hc <;> rw [hc] at hmem
  · exact this.1 hmem
  · exact this.2 hmem

theorem ws_of_eq_lf_cr : ('\n').isWhitespace = true ∧ ('\r').isWhitespace = true := by
  decide

/-- A trim-fixed string does not end in a newline or carriage return. -/
theorem trim_fixed_last_ne (l : List Char) (h : trim l = l) (x : Char)
    (hx : l.getLast? = some x) : x ≠ '\n' ∧ x ≠ '\r' := by
  have hws := trim_fixed_getLast? l h x hx
  constructor <;> intro hc <;> rw [hc] at hws
  · exact hws ws_of_eq_lf_cr.1
  · exact hws ws_of_eq_lf_cr.2

theorem arrowSep_no_lf : '\n' ∉ arrowSep := by decide

/-- The timestamp line of a clean segment has no newline. -/
theorem timeLine_no_lf (s : CaptionSegment) (h : CleanSeg s) :
    '\n' ∉ s.startTime ++ arrowSep ++ s.endTime := by
  intro hm
  rcases List.mem_append.mp hm with hm | hm
  · rcases List.mem_append.mp hm with hm | hm
    · exact h.2.2.2.2.2.2.1 hm
    · exact arrowSep_no_lf hm
  · exact h.2.2.2.2.2.2.2.1 hm

theorem getLast?_cons_of_ne_nil {α : Type} (a : α) (l : List α) (h : l ≠ []) :
    (a :: l).getLast? = l.getLast? := by
  cases l with
  | nil => exact absurd rfl h
  | cons b t => exact List.getLast?_cons_cons

/-- The serialized block of a clean segment ends where its text ends. -/
theorem blockOf_getLast? (s : CaptionSegment) (h : CleanSeg s) :
    (blockOf s).getLast? = s.text.getLast? := by
  unfold blockOf
  rw [List.getLast?_append_of_ne_nil _ (by simp)]
  rw [getLast?_cons_of_ne_nil _ _ (by simp)]
  rw [List.getLast?_append_of_ne_nil _ (by simp)]
  rw [getLast?_cons_of_ne_nil _ _ h.2.2.1]

/-- The serialized block of a clean segment has no adjacent pair ending in
a newline whose left character can be p, for the two p of interest. -/
theorem pairFree_blockOf (p : Char) (s : CaptionSegment) (h : CleanSeg s)
    (hid : ∀ x, (intToString s.id).getLast? = some x → x ≠ p)
    (hen : ∀ x, s.endTime.getLast? = some x → x ≠ p) :
    pairFree p '\n' (blockOf s) := by
  have hcs := h
  obtain ⟨hst, hene, htx, hts, hte, htt, hnst, hnen, hntx, -⟩ := h
  have pfT : pairFree p '\n' s.text := pairFree_of_not_mem_right _ _ _ hntx
  have pfDE : pairFree p '\n' ('\n' :: s.text) := by
    refine pairFree_append p '\n' ['\n'] s.text trivial pfT ?_
    intro x hx y hy hc
    have hyT : y ∈ s.text := mem_of_head?_some hy
    rw [hc.2] at hyT
    exact hntx hyT
  have hTLlf : '\n' ∉ s.startTime ++ arrowSep ++ s.endTime := timeLine_no_lf s hcs
  have pfTL : pairFree p '\n' (s.startTime ++ arrowSep ++ s.endTime) :=
    pairFree_of_not_mem_right _ _ _ hTLlf
  have pfC : pairFree p '\n'
      ((s.startTime ++ arrowSep ++ s.endTime) ++ ('\n' :: s.text)) := by
    refine pairFree_append p '\n' _ _ pfTL pfDE ?_
    intro x hx y hy hc
    rw [List.getLast?_append_of_ne_nil _ hene] at hx
    exact hen x hx hc.1
  have pfB : pairFree p '\n'
      ('\n' :: ((s.startTime ++ arrowSep ++ s.endTime) ++ ('\n' :: s.text))) := by
    refine pairFree_append p '\n' ['\n'] _ trivial pfC ?_
    intro x hx y hy hc
    rcases List.exists_cons_of_ne_nil hst with ⟨c0, st', hst0⟩
    rw [hst0] at hy
    simp only [List.cons_append, List.head?_cons] at hy
    have hy0 : y = c0 := by
      injection hy with hy
      exact hy.symm
    rw [hc.2] at hy0
    rw [hst0] at hnst
    exact hnst (by rw [← hy0]; simp)
  unfold blockOf
  refine pairFree_append p '\n' (intToString s.id) _ ?_ pfB ?_
  · exact pairFree_of_not_mem_right _ _ _ (intToString_no_lf_cr s.id).1
  · intro x hx y hy hc
    exact hid x hx hc.1

/-- Parsing the serialized block of a clean segment yields it back. -/
theorem parseBlock_blockOf (s : CaptionSegment) (h : CleanSeg s) :
    parseBlock (blockOf s) = some s := by
  obtain ⟨hst, hene, htx, hts, hte, htt, hnst, hnen, hntx, hsplit⟩ := h
  have hidlf : '\n' ∉ intToString s.id := (intToString_no_lf_cr s.id).1
  have hTLlf : '\n' ∉ s.startTime ++ arrowSep ++ s.endTime :=
    timeLine_no_lf s ⟨hst, hene, htx, hts, hte, htt, hnst, hnen, hntx, hsplit⟩
  have hlines : jsSplit ['\n'] (blockOf s) =
      [intToString s.id, s.startTime ++ arrowSep ++ s.endTime, s.text] := by
    unfold blockOf
    rw [jsSplit_single_append '\n' _ _ hidlf]
    rw [jsSplit_single_append '\n' _ _ hTLlf]
    rw [jsSplit_single_of_not_mem '\n' _ hntx]
  unfold parseBlock
  rw [hlines]
  simp only [jsParseInt_intToString, hsplit]
  rw [if_pos ⟨hst, hene⟩]
  have hjoin : joinSep [' '] [s.text] = s.text := rfl
  rw [hjoin, hts, hte, htt]

theorem filterMap_parseBlock_map (segs : List CaptionSegment)
    (h : ∀ s ∈ segs, CleanSeg s) :
    (segs.map blockOf).filterMap parseBlock = segs := by
  induction segs with
  | nil => rfl
  | cons s rest ih =>
    simp only [List.map_cons, List.filterMap_cons,
      parseBlock_blockOf s (h s (by simp))]
    rw [ih (fun s' hs' => h s' (List.mem_cons_of_mem _ hs'))]

/-- The serialized caption set of clean segments contains no
carriage-return-newline pair, so normalization leaves it unchanged. -/
theorem pairFree_cr_lf_generateSRT (segs : List CaptionSegment)
    (h : ∀ s ∈ segs, CleanSeg s) :
    pairFree '\r' '\n' (generateSRT segs) := by
  unfold generateSRT
  refine pairFree_joinSep_pair '\r' '\n' '\n' (segs.map blockOf) (by decide) ?_
  intro b hb
  obtain ⟨s, hs, hbs⟩ := List.mem_map.mp hb
  subst hbs
  have hcs := h s hs
  refine ⟨?_, ?_, ?_⟩
  · refine pairFree_blockOf '\r' s hcs ?_ ?_
    · intro x hx
      exact (intToString_getLast_ne s.id x hx).2
    · intro x hx
      exact (trim_fixed_last_ne s.endTime hcs.2.2.2.2.1 x hx).2
  · intro x hx hc
    rw [blockOf_getLast? s hcs] at hx
    exact (trim_fixed_last_ne s.text hcs.2.2.2.2.2.1 x hx).2 hc.1
  · intro y hy hc
    exact absurd hc.1 (by decide)

/-- Round trip on the segment level: parsing the serialization of clean
segments yields them back. -/
theorem parseSRT_generateSRT (segs : List CaptionSegment)
    (h : ∀ s ∈ segs, CleanSeg s) :
    parseSRT (generateSRT segs) = segs := by
  cases hsegs : segs with
  | nil => rfl
  | cons s0 rest =>
    subst hsegs
    unfold parseSRT
    rw [jsReplaceAll_pair_of_pairFree '\r' '\n' _ _
      (pairFree_cr_lf_generateSRT _ h)]
    unfold generateSRT
    rw [jsSplit_pair_joinSep '\n' '\n' _ ?hblocks (by simp)]
    · exact filterMap_parseBlock_map _ h
    case hblocks =>
      intro b hb
      obtain ⟨s, hs, hbs⟩ := List.mem_map.mp hb
      subst hbs
      have hcs := h s hs
      refine ⟨?_, ?_⟩
      · refine pairFree_blockOf '\n' s hcs ?_ ?_
        · intro x hx
          exact (intToString_getLast_ne s.id x hx).1
        · intro x hx
          exact (trim_fixed_last_ne s.endTime hcs.2.2.2.2.1 x hx).1
      · intro _ hlast
        rw [blockOf_getLast? s hcs] at hlast
        exact (trim_fixed_last_ne s.text hcs.2.2.2.2.2.1 '\n' hlast).1 rfl

theorem rangeWidth_nil (m : List Char → ℚ) (spaceW : ℚ) :
    rangeWidth m spaceW [] = 0 := by
  simp [rangeWidth]

theorem rangeWidth_single (m : List Char → ℚ) (spaceW : ℚ) (w : List Char) :
    rangeWidth m spaceW [w] = m w := by
  simp [rangeWidth]

theorem rangeWidth_append_single (m : List Char → ℚ) (spaceW : ℚ)
    (g : List (List Char)) (w : List Char) (h : g ≠ []) :
    rangeWidth m spaceW (g ++ [w]) = rangeWidth m spaceW g + spaceW + m w := by
  have hpos : 1 ≤ g.length := List.length_pos.mpr h
  unfold rangeWidth
  rw [List.map_append, List.sum_append, List.length_append]
  have hc : ((g.length + 1 - 1 : ℕ) : ℚ) = ((g.length - 1 : ℕ) : ℚ) + 1 := by
    have hn : g.length + 1 - 1 = (g.length - 1) + 1 := by omega
    rw [hn]
    push_cast
    ring
  simp only [List.length_singleton, List.map_cons, List.map_nil, List.sum_cons,
    List.sum_nil, hc]
  ring

theorem joinSep_append (sep : List Char) (l1 l2 : List (List Char))
    (h1 : l1 ≠ []) (h2 : l2 ≠ []) :
    joinSep sep (l1 ++ l2) = joinSep sep l1 ++ sep ++ joinSep sep l2 := by
  induction l1 with
  | nil => exact absurd rfl h1
  | cons a t ih =>
    cases t with
    | nil =>
      rw [List.singleton_append, joinSep_cons sep a l2 h2]
      rfl
    | cons b t' =>
      rw [List.cons_append, joinSep_cons sep a ((b :: t') ++ l2) (by simp),
        joinSep_cons sep a (b :: t') (by simp), ih (by simp)]
      simp [List.append_assoc]

/-- Joining joined groups equals joining the flattened word list. -/
theorem joinSep_map_flatten (sep : List Char) (gs : List (List (List Char)))
    (h : ∀ g ∈ gs, g ≠ []) :
    joinSep sep (gs.map (joinSep sep)) = joinSep sep gs.flatten := by
  induction gs with
  | nil => rfl
  | cons g gs' ih =>
    cases gs' with
    | nil => simp [joinSep, List.flatten]
    | cons g2 gs'' =>
      have hg : g ≠ [] := h g (by simp)
      have hrest : ∀ g' ∈ g2 :: gs'', g' ≠ [] := fun g' hg' =>
        h g' (List.mem_cons_of_mem _ hg')
      have hflat : (g2 :: gs'').flatten ≠ [] := by
        have hg2 : g2 ≠ [] := hrest g2 (by simp)
        rw [List.flatten_cons]
        intro hnil
        exact hg2 (List.append_eq_nil.mp hnil).1
      rw [List.map_cons, joinSep_cons sep _ _ (by simp), ih hrest]
      rw [show ((g :: g2 :: gs'') : List (List (List Char))).flatten =
        g ++ (g2 :: gs'').flatten from List.flatten_cons]
      rw [joinSep_append sep g (g2 :: gs'').flatten hg hflat]

/-- The greedy wrap emits every word exactly once, in order. -/
theorem greedyGroups_flatten (m : List Char → ℚ) (spaceW maxWidth : ℚ) (vmw : ℕ) :
    ∀ (ws cur : List (List Char)) (cw : ℚ),
      (greedyGroups m spaceW maxWidth vmw ws cur cw).flatten = cur ++ ws := by
  intro ws
  induction ws with
  | nil =>
    intro cur cw
    by_cases hc : cur = []
    · simp [greedyGroups, hc]
    · simp [greedyGroups, hc]
  | cons w ws' ih =>
    intro cur cw
    unfold greedyGroups
    by_cases hover : (cur ≠ [] ∧ cw + spaceW + m w > maxWidth) ∨ vmw ≤ cur.length
    · rw [if_pos hover]
      by_cases hc : cur = []
      · rw [if_pos hc, ih]
        simp [hc]
      · rw [if_neg hc, List.flatten_cons, ih]
        simp
    · rw [if_neg hover]
      by_cases hc : cur = []
      · rw [if_pos hc, ih]
        simp [hc]
      · rw [if_neg hc, ih]
        simp

/-- The greedy wrap never emits an empty line. -/
theorem greedyGroups_ne_nil (m : List Char → ℚ) (spaceW maxWidth : ℚ) (vmw : ℕ) :
    ∀ (ws cur : List (List Char)) (cw : ℚ),
      ∀ g ∈ greedyGroups m spaceW maxWidth vmw ws cur cw, g ≠ [] := by
  intro ws
  induction ws with
  | nil =>
    intro cur cw g hg
    by_cases hc : cur = []
    · simp [greedyGroups, hc] at hg
    · simp [greedyGroups, hc] at hg
      rw [hg]
      exact hc
  | cons w ws' ih =>
    intro cur cw g hg
    unfold greedyGroups at hg
    by_cases hover : (cur ≠ [] ∧ cw + spaceW + m w > maxWidth) ∨ vmw ≤ cur.length
    · rw [if_pos hover] at hg
      by_cases hc : cur = []
      · rw [if_pos hc] at hg
        exact ih [w] (m w) g hg
      · rw [if_neg hc] at hg
        rcases List.mem_cons.mp hg with hg | hg
        · rw [hg]; exact hc
        · exact ih [w] (m w) g hg
    · rw [if_neg hover] at hg
      by_cases hc : cur = []
      · rw [if_pos hc] at hg
        exact ih [w] (m w) g hg
      · rw [if_neg hc] at hg
        exact ih (cur ++ [w]) (cw + spaceW + m w) g hg

/-- Greedy wrap invariant: every emitted line is good. -/
theorem greedyGroups_good (m : List Char → ℚ) (spaceW maxWidth : ℚ) (vmw : ℕ)
    (hv : 1 ≤ vmw) :
    ∀ (ws cur : List (List Char)) (cw : ℚ),
      cw = rangeWidth m spaceW cur → cur.length ≤ vmw →
      (rangeWidth m spaceW cur ≤ maxWidth ∨ cur.length ≤ 1) →
      ∀ g ∈ greedyGroups m spaceW maxWidth vmw ws cur cw,
        GoodGroup m spaceW maxWidth vmw g := by
  intro ws
  induction ws with
  | nil =>
    intro cur cw hcw hlen hgood g hg
    by_cases hc : cur = []
    · simp [greedyGroups, hc] at hg
    · simp [greedyGroups, hc] at hg
      rw [hg]
      refine ⟨hlen, ?_⟩
      rcases hgood with hgood | hgood
      · exact Or.inl hgood
      · exact Or.inr (by
          have h1 : 1 ≤ cur.length := List.length_pos.mpr hc
          omega)
  | cons w ws' ih =>
    intro cur cw hcw hlen hgood g hg
    unfold greedyGroups at hg
    by_cases hover : (cur ≠ [] ∧ cw + spaceW + m w > maxWidth) ∨ vmw ≤ cur.length
    · rw [if_pos hover] at hg
      by_cases hc : cur = []
      · rw [if_pos hc] at hg
        exact ih [w] (m w) (by rw [rangeWidth_single]) (by simpa using hv)
          (Or.inr (by simp)) g hg
      · rw [if_neg hc] at hg
        rcases List.mem_cons.mp hg with hg | hg
        · rw [hg]
          refine ⟨hlen, ?_⟩
          rcases hgood with hgood | hgood
          · exact Or.inl hgood
          · exact Or.inr (by
              have h1 : 1 ≤ cur.length := List.length_pos.mpr hc
              omega)
        · exact ih [w] (m w) (by rw [rangeWidth_single]) (by simpa using hv)
            (Or.inr (by simp)) g hg
    · rw [if_neg hover] at hg
      push_neg at hover
      obtain ⟨hnw, hnc⟩ := hover
      by_cases hc : cur = []
      · rw [if_pos hc] at hg
        exact ih [w] (m w) (by rw [rangeWidth_single]) (by simpa using hv)
          (Or.inr (by simp)) g hg
      · rw [if_neg hc] at hg
        have hwid : cw + spaceW + m w ≤ maxWidth := by
          rcases hnw hc with hcon
          linarith [hcon]
        refine ih (cur ++ [w]) (cw + spaceW + m w) ?_ ?_ ?_ g hg
        · rw [rangeWidth_append_single m spaceW cur w hc, hcw]
        · have : cur.length < vmw := lt_of_not_le (by simpa using hnc)
          simp
          omega
        · left
          rw [rangeWidth_append_single m spaceW cur w hc, ← hcw]
          exact hwid

theorem scanInv_step (m : List Char → ℚ) (spaceW maxWidth : ℚ) (vmw : ℕ)
    (words : List (List Char)) (S : List ℕ) (acc : Option (ℕ × ℚ)) (i : ℕ)
    (h : ScanInv m spaceW maxWidth vmw words S acc) :
    ScanInv m spaceW maxWidth vmw words (S ++ [i])
      (bestStep m spaceW maxWidth vmw words acc i) := by
  unfold bestStep
  by_cases hv : splitValid m spaceW maxWidth vmw words i
  · rw [if_pos hv]
    cases acc with
    | none =>
      refine ⟨by simp, hv, rfl, ?_⟩
      intro j hj hvj
      rcases List.mem_append.mp hj with hj | hj
      · exact absurd hvj (h j hj)
      · have : j = i := by simpa using hj
        rw [this]
    | some jd =>
      obtain ⟨j0, d0⟩ := jd
      obtain ⟨hj0, hv0, hd0, hmin⟩ := h
      show ScanInv m spaceW maxWidth vmw words (S ++ [i])
        (if splitDiff m spaceW words i < d0 then some (i, splitDiff m spaceW words i)
         else some (j0, d0))
      by_cases hlt : splitDiff m spaceW words i < d0
      · rw [if_pos hlt]
        refine ⟨by simp, hv, rfl, ?_⟩
        intro j hj hvj
        rcases List.mem_append.mp hj with hj | hj
        · exact le_of_lt (lt_of_lt_of_le hlt (hmin j hj hvj))
        · have : j = i := by simpa using hj
          rw [this]
      · rw [if_neg hlt]
        refine ⟨List.mem_append_left _ hj0, hv0, hd0, ?_⟩
        intro j hj hvj
        rcases List.mem_append.mp hj with hj | hj
        · exact hmin j hj hvj
        · have : j = i := by simpa using hj
          rw [this]
          exact le_of_not_lt hlt
  · rw [if_neg hv]
    cases acc with
    | none =>
      intro j hj
      rcases List.mem_append.mp hj with hj | hj
      · exact h j hj
      · have : j = i := by simpa using hj
        rw [this]
        exact hv
    | some jd =>
      obtain ⟨j0, d0⟩ := jd
      obtain ⟨hj0, hv0, hd0, hmin⟩ := h
      refine ⟨List.mem_append_left _ hj0, hv0, hd0, ?_⟩
      intro j hj hvj
      rcases List.mem_append.mp hj with hj | hj
      · exact hmin j hj hvj
      · have : j = i := by simpa using hj
        rw [this] at hvj
        exact absurd hvj hv

theorem scanInv_foldl (m : List Char → ℚ) (spaceW maxWidth : ℚ) (vmw : ℕ)
    (words : List (List Char)) :
    ∀ (l S : List ℕ) (acc : Option (ℕ × ℚ)),
      ScanInv m spaceW maxWidth vmw words S acc →
      ScanInv m spaceW maxWidth vmw words (S ++ l)
        (l.foldl (bestStep m spaceW maxWidth vmw words) acc) := by
  intro l
  induction l with
  | nil =>
    intro S acc h
    simpa using h
  | cons i l' ih =>
    intro S acc h
    rw [List.foldl_cons]
    have hstep := scanInv_step m spaceW maxWidth vmw words S acc i h
    have := ih (S ++ [i]) _ hstep
    rw [List.append_assoc] at this
    simpa using this

/-- The balanced-split search returns the first valid index of minimal
width difference over the scanned range, or none when no index is valid. -/
theorem bestSplit_spec (m : List Char → ℚ) (spaceW maxWidth : ℚ) (vmw : ℕ)
    (words : List (List Char)) :
    ScanInv m spaceW maxWidth vmw words (List.range' 1 (words.length - 1))
      (bestSplit m spaceW maxWidth vmw words) := by
  have h0 : ScanInv m spaceW maxWidth vmw words [] none := by
    intro j hj
    simp at hj
  have := scanInv_foldl m spaceW maxWidth vmw words
    (List.range' 1 (words.length - 1)) [] none h0
  simpa using this

theorem clampProgress_nonneg (dur e : ℚ) : 0 ≤ clampProgress dur e :=
  le_max_left 0 _

theorem clampProgress_le_one (dur e : ℚ) : clampProgress dur e ≤ 1 :=
  max_le (by norm_num) (min_le_left 1 _)

theorem clampProgress_eq_one (dur e : ℚ) (hd : 0 < dur) (h : dur ≤ e) :
    clampProgress dur e = 1 := by
  unfold clampProgress
  have h1 : (1 : ℚ) ≤ e / dur := (one_le_div hd).mpr h
  rw [min_eq_left h1]
  exact max_eq_right (by norm_num)

theorem lookupC_eraseC_self {α : Type} (key : ℤ) (l : List (ℤ × α)) :
    lookupC key (eraseC key l) = Option.none := by
  induction l with
  | nil => rfl
  | cons kv t ih =>
    obtain ⟨k, v⟩ := kv
    by_cases hk : k = key
    · simp [eraseC, hk, ih]
    · simp [eraseC, hk, lookupC, ih]

theorem mem_eraseC {α : Type} (key : ℤ) (l : List (ℤ × α)) :
    ∀ e ∈ eraseC key l, e ∈ l ∧ e.1 ≠ key := by
  induction l with
  | nil => intro e he; simp [eraseC] at he
  | cons kv t ih =>
    obtain ⟨k, v⟩ := kv
    intro e he
    by_cases hk : k = key
    · rw [eraseC, if_pos hk] at he
      obtain ⟨hmem, hne⟩ := ih e he
      exact ⟨List.mem_cons_of_mem _ hmem, hne⟩
    · rw [eraseC, if_neg hk] at he
      rcases List.mem_cons.mp he with he | he
      · rw [he]
        exact ⟨by simp, hk⟩
      · obtain ⟨hmem, hne⟩ := ih e he
        exact ⟨List.mem_cons_of_mem _ hmem, hne⟩

theorem lookupC_editTexts_ne (key id : ℤ) (t : List Char)
    (l : List (ℤ × List Char)) (h : key ≠ id) :
    lookupC key (editTexts id t l) = lookupC key l := by
  induction l with
  | nil => rfl
  | cons kv tl ih =>
    obtain ⟨k, v⟩ := kv
    by_cases hk : k = id
    · have hkey : ¬ (k = key) := by rw [hk]; exact fun hc => h hc.symm
      rw [editTexts, if_pos hk, lookupC, if_neg hkey, lookupC, if_neg hkey, ih]
    · rw [editTexts, if_neg hk]
      by_cases hkey : k = key
      · rw [lookupC, if_pos hkey, lookupC, if_pos hkey]
      · rw [lookupC, if_neg hkey, lookupC, if_neg hkey, ih]

theorem parseSRT_eq_blocks (txt : List Char) :
    parseSRT txt = (blocksOf txt).filterMap parseBlock := rfl

/-- A block contributes no segment exactly when the code's malformedness
condition holds. -/
theorem parseBlock_none_iff (b : List Char) :
    parseBlock b = Option.none ↔ codeMalformedBlock b = true := by
  unfold parseBlock codeMalformedBlock
  rcases hl : jsSplit ['\n'] b with _ | ⟨l0, _ | ⟨l1, _ | ⟨l2, rest⟩⟩⟩
  · simp
  · simp
  · simp
  · simp only []
    cases hpi : jsParseInt l0 with
    | none => simp
    | some i =>
      simp only [Option.isNone_some, Bool.false_or]
      rcases ha : jsSplit arrowSep l1 with _ | ⟨st, _ | ⟨en, rest2⟩⟩
      · simp
      · simp
      · simp only []
        by_cases hne : st ≠ [] ∧ en ≠ []
        · rw [if_pos hne]
          simp [List.isEmpty_iff, hne.1, hne.2]
        · rw [if_neg hne]
          push_neg at hne
          simp only [true_iff]
          by_cases hst : st = []
          · simp [List.isEmpty_iff, hst]
          · simp [List.isEmpty_iff, hst, hne hst]

/-- Comma and dot are interchangeable millisecond separators for
parseTime. -/
theorem parseTime_comma_dot (a b : List Char) (ha : ',' ∉ a) (hb : ',' ∉ b) :
    parseTime (a ++ ',' :: b) = parseTime (a ++ '.' :: b) := by
  have h1 : jsReplaceFirst [','] ['.'] (a ++ ',' :: b) = a ++ '.' :: b := by
    have := jsReplaceFirst_append ',' ['.'] a b ha
    simpa using this
  have h2 : jsReplaceFirst [','] ['.'] (a ++ '.' :: b) = a ++ '.' :: b := by
    refine jsReplaceFirst_of_not_mem ',' ['.'] _ ?_
    intro hm
    rcases List.mem_append.mp hm with hm | hm
    · exact ha hm
    · rcases List.mem_cons.mp hm with hm | hm
      · exact absurd hm (by decide)
      · exact hb hm
  unfold parseTime
  rw [if_neg (by simp : ¬ (a ++ ',' :: b = [])), if_neg (by simp : ¬ (a ++ '.' :: b = []))]
  rw [h1, h2]

/-- Every member of a joined list occurs verbatim inside the join. -/
theorem joinSep_mem_parts (sep : List Char) (bs : List (List Char)) (b : List Char)
    (hb : b ∈ bs) : ∃ L R, joinSep sep bs = L ++ (b ++ R) := by
  induction bs with
  | nil => simp at hb
  | cons b0 bs' ih =>
    rcases List.mem_cons.mp hb with heq | htail
    · cases bs' with
      | nil =>
        refine ⟨[], [], ?_⟩
        simp [joinSep, heq]
      | cons b1 bs'' =>
        refine ⟨[], sep ++ joinSep sep (b1 :: bs''), ?_⟩
        rw [joinSep_cons sep b0 (b1 :: bs'') (by simp), heq]
        simp [List.append_assoc]
    · obtain ⟨L, R, hLR⟩ := ih htail
      cases bs' with
      | nil => simp at htail
      | cons b1 bs'' =>
        refine ⟨b0 ++ sep ++ L, R, ?_⟩
        rw [joinSep_cons sep b0 (b1 :: bs'') (by simp), hLR]
        simp [List.append_assoc]

/-- Each segment's timestamp pair appears verbatim in the serialized
output. -/
theorem generateSRT_timestamps_verbatim (segs : List CaptionSegment)
    (s : CaptionSegment) (hs : s ∈ segs) :
    ∃ L R, generateSRT segs =
      L ++ ((s.startTime ++ arrowSep ++ s.endTime) ++ R) := by
  obtain ⟨L, R, hLR⟩ := joinSep_mem_parts ['\n', '\n'] (segs.map blockOf)
    (blockOf s) (List.mem_map.mpr ⟨s, hs, rfl⟩)
  refine ⟨L ++ intToString s.id ++ ['\n'], '\n' :: s.text ++ R, ?_⟩
  unfold generateSRT
  rw [hLR]
  unfold blockOf
  simp [List.append_assoc]

theorem getWrappedLines_eq_single (m : List Char → ℚ) (text : List Char)
    (maxWidth : ℚ) (vmw : ℕ)
    (h1 : rangeWidth m (m [' ']) (jsSplit [' '] text) ≤ maxWidth ∧
      (jsSplit [' '] text).length ≤ vmw) :
    getWrappedLines m text maxWidth vmw = [text] := by
  unfold getWrappedLines
  rw [if_neg (jsSplit_ne_nil [' '] text), if_pos h1]

theorem getWrappedLines_eq_split (m : List Char → ℚ) (text : List Char)
    (maxWidth : ℚ) (vmw : ℕ) (i : ℕ) (d : ℚ)
    (h1 : ¬ (rangeWidth m (m [' ']) (jsSplit [' '] text) ≤ maxWidth ∧
      (jsSplit [' '] text).length ≤ vmw))
    (hbs : bestSplit m (m [' ']) maxWidth vmw (jsSplit [' '] text) = some (i, d)) :
    getWrappedLines m text maxWidth vmw =
      [joinSep [' '] ((jsSplit [' '] text).take i),
       joinSep [' '] ((jsSplit [' '] text).drop i)] := by
  unfold getWrappedLines
  rw [if_neg (jsSplit_ne_nil [' '] text), if_neg h1, hbs]

theorem getWrappedLines_eq_greedy (m : List Char → ℚ) (text : List Char)
    (maxWidth : ℚ) (vmw : ℕ)
    (h1 : ¬ (rangeWidth m (m [' ']) (jsSplit [' '] text) ≤ maxWidth ∧
      (jsSplit [' '] text).length ≤ vmw))
    (hbs : bestSplit m (m [' ']) maxWidth vmw (jsSplit [' '] text) = Option.none) :
    getWrappedLines m text maxWidth vmw =
      (greedyGroups m (m [' ']) maxWidth vmw (jsSplit [' '] text) [] 0).map
        (joinSep [' ']) := by
  unfold getWrappedLines
  rw [if_neg (jsSplit_ne_nil [' '] text), if_neg h1, hbs]

theorem take_ne_nil_of_lt {α : Type} (l : List α) (i : ℕ) (h0 : 1 ≤ i)
    (hlen : l ≠ []) : l.take i ≠ [] := by
  intro hc
  have := congrArg List.length hc
  rw [List.length_take] at this
  simp at this
  rcases this with h | h
  · omega
  · exact hlen h

theorem drop_ne_nil_of_lt {α : Type} (l : List α) (i : ℕ) (h : i < l.length) :
    l.drop i ≠ [] := by
  intro hc
  have := congrArg List.length hc
  rw [List.length_drop] at this
  simp at this
  omega

/-- Membership bounds extracted from the balanced-split invariant. -/
theorem mem_range'_bounds (i n : ℕ) (h : i ∈ List.range' 1 (n - 1)) (hn : 1 ≤ n) :
    1 ≤ i ∧ i < n := by
  rw [List.mem_range'_1] at h
  omega

/-- C10: the layout function preserves the word sequence — for every input
text (cold cache), joining the returned lines with single spaces yields
exactly the input text, so no word is dropped, duplicated, reordered or
truncated in any of the three branches. -/
theorem c10_words_preserved (m : List Char → ℚ) (text : List Char)
    (maxWidth : ℚ) (vmw : ℕ) :
    joinSep [' '] (getWrappedLines m text maxWidth vmw) = text := by
  by_cases h1 : rangeWidth m (m [' ']) (jsSplit [' '] text) ≤ maxWidth ∧
      (jsSplit [' '] text).length ≤ vmw
  · rw [getWrappedLines_eq_single m text maxWidth vmw h1]
    rfl
  · cases hbs : bestSplit m (m [' ']) maxWidth vmw (jsSplit [' '] text) with
    | some id0 =>
      obtain ⟨i, d⟩ := id0
      rw [getWrappedLines_eq_split m text maxWidth vmw i d h1 hbs]
      have hspec := bestSplit_spec m (m [' ']) maxWidth vmw (jsSplit [' '] text)
      rw [hbs] at hspec
      have hspec2 : i ∈ List.range' 1 ((jsSplit [' '] text).length - 1) ∧
          splitValid m (m [' ']) maxWidth vmw (jsSplit [' '] text) i ∧
          d = splitDiff m (m [' ']) (jsSplit [' '] text) i ∧
          ∀ j ∈ List.range' 1 ((jsSplit [' '] text).length - 1),
            splitValid m (m [' ']) maxWidth vmw (jsSplit [' '] text) j →
            d ≤ splitDiff m (m [' ']) (jsSplit [' '] text) j := hspec
      have hNge : 1 ≤ (jsSplit [' '] text).length :=
        List.length_pos.mpr (jsSplit_ne_nil _ _)
      obtain ⟨hi1, hiN⟩ := mem_range'_bounds i _ hspec2.1 hNge
      have htake : (jsSplit [' '] text).take i ≠ [] :=
        take_ne_nil_of_lt _ i hi1 (jsSplit_ne_nil _ _)
      have hdrop : (jsSplit [' '] text).drop i ≠ [] := drop_ne_nil_of_lt _ i hiN
      rw [joinSep_cons [' '] _ _ (by simp)]
      rw [show joinSep [' '] [joinSep [' '] ((jsSplit [' '] text).drop i)] =
          joinSep [' '] ((jsSplit [' '] text).drop i) from rfl]
      rw [← joinSep_append [' '] _ _ htake hdrop, List.take_append_drop]
      exact joinSep_jsSplit_single ' ' text
    | none =>
      rw [getWrappedLines_eq_greedy m text maxWidth vmw h1 hbs]
      rw [joinSep_map_flatten [' '] _
        (greedyGroups_ne_nil m (m [' ']) maxWidth vmw _ [] 0)]
      rw [greedyGroups_flatten]
      rw [List.nil_append]
      exact joinSep_jsSplit_single ' ' text

/-- C3: for every text, measure function and maxWidth, when maxWords is at
least 1 every line returned by the layout has at most maxWords words, and
measured width at most maxWidth except for a line that is a single word of
the input placed alone (never truncated). -/
theorem c3_layout_invariants (m : List Char → ℚ) (text : List Char)
    (maxWidth : ℚ) (vmw : ℕ) (line : List Char) (hv : 1 ≤ vmw)
    (hline : line ∈ getWrappedLines m text maxWidth vmw) :
    (jsSplit [' '] line).length ≤ vmw ∧
    (rangeWidth m (m [' ']) (jsSplit [' '] line) ≤ maxWidth ∨
      (jsSplit [' '] line = [line] ∧ line ∈ jsSplit [' '] text)) := by
  have hchunks := jsSplit_single_chunks ' ' text
  by_cases h1 : rangeWidth m (m [' ']) (jsSplit [' '] text) ≤ maxWidth ∧
      (jsSplit [' '] text).length ≤ vmw
  · rw [getWrappedLines_eq_single m text maxWidth vmw h1] at hline
    have hl : line = text := by simpa using hline
    rw [hl]
    exact ⟨h1.2, Or.inl h1.1⟩
  · cases hbs : bestSplit m (m [' ']) maxWidth vmw (jsSplit [' '] text) with
    | some id0 =>
      obtain ⟨i, d⟩ := id0
      rw [getWrappedLines_eq_split m text maxWidth vmw i d h1 hbs] at hline
      have hspec := bestSplit_spec m (m [' ']) maxWidth vmw (jsSplit [' '] text)
      rw [hbs] at hspec
      have hspec2 : i ∈ List.range' 1 ((jsSplit [' '] text).length - 1) ∧
          splitValid m (m [' ']) maxWidth vmw (jsSplit [' '] text) i ∧
          d = splitDiff m (m [' ']) (jsSplit [' '] text) i ∧
          ∀ j ∈ List.range' 1 ((jsSplit [' '] text).length - 1),
            splitValid m (m [' ']) maxWidth vmw (jsSplit [' '] text) j →
            d ≤ splitDiff m (m [' ']) (jsSplit [' '] text) j := hspec
      obtain ⟨hvi1, hvi2, hvw1, hvw2⟩ := hspec2.2.1
      have hNge : 1 ≤ (jsSplit [' '] text).length :=
        List.length_pos.mpr (jsSplit_ne_nil _ _)
      obtain ⟨hi1, hiN⟩ := mem_range'_bounds i _ hspec2.1 hNge
      have htake : (jsSplit [' '] text).take i ≠ [] :=
        take_ne_nil_of_lt _ i hi1 (jsSplit_ne_nil _ _)
      have hdrop : (jsSplit [' '] text).drop i ≠ [] := drop_ne_nil_of_lt _ i hiN
      rcases (by simpa using hline :
          line = joinSep [' '] ((jsSplit [' '] text).take i) ∨
          line = joinSep [' '] ((jsSplit [' '] text).drop i)) with hl | hl
      · have hsub : ∀ w ∈ (jsSplit [' '] text).take i, ' ' ∉ w := fun w hw =>
          hchunks w (List.take_subset i _ hw)
        have hjs : jsSplit [' '] line = (jsSplit [' '] text).take i := by
          rw [hl]
          exact jsSplit_joinSep_single ' ' _ hsub htake
        rw [hjs]
        refine ⟨?_, Or.inl hvw1⟩
        rw [List.length_take]
        exact le_trans (Nat.min_le_left _ _) hvi1
      · have hsub : ∀ w ∈ (jsSplit [' '] text).drop i, ' ' ∉ w := fun w hw =>
          hchunks w (List.drop_subset i _ hw)
        have hjs : jsSplit [' '] line = (jsSplit [' '] text).drop i := by
          rw [hl]
          exact jsSplit_joinSep_single ' ' _ hsub hdrop
        rw [hjs]
        refine ⟨?_, Or.inl hvw2⟩
        rw [List.length_drop]
        exact hvi2
    | none =>
      rw [getWrappedLines_eq_greedy m text maxWidth vmw h1 hbs] at hline
      obtain ⟨g, hg, hlineg⟩ := List.mem_map.mp hline
      have hgood := greedyGroups_good m (m [' ']) maxWidth vmw hv
        (jsSplit [' '] text) [] 0 (by rw [rangeWidth_nil]) (by simp)
        (Or.inr (by simp)) g hg
      have hgne := greedyGroups_ne_nil m (m [' ']) maxWidth vmw
        (jsSplit [' '] text) [] 0 g hg
      have hflat := greedyGroups_flatten m (m [' ']) maxWidth vmw
        (jsSplit [' '] text) [] 0
      have hsubw : ∀ w ∈ g, w ∈ jsSplit [' '] text := by
        intro w hw
        have : w ∈ (greedyGroups m (m [' ']) maxWidth vmw
            (jsSplit [' '] text) [] 0).flatten :=
          List.mem_flatten.mpr ⟨g, hg, hw⟩
        rw [hflat] at this
        simpa using this
      have hsub : ∀ w ∈ g, ' ' ∉ w := fun w hw => hchunks w (hsubw w hw)
      have hjs : jsSplit [' '] line = g := by
        rw [← hlineg]
        exact jsSplit_joinSep_single ' ' g hsub hgne
      rw [hjs]
      refine ⟨hgood.1, ?_⟩
      rcases hgood.2 with hw | hlen1
      · exact Or.inl hw
      · obtain ⟨w, hwg⟩ := List.length_eq_one.mp hlen1
        right
        have hlw : line = w := by
          rw [← hlineg, hwg]
          rfl
        constructor
        · rw [hwg, hlw]
        · rw [hlw]
          exact hsubw w (by rw [hwg]; simp)

/-- C2: whenever the single-line branch does not apply and some split
index is valid, the returned layout is the two lines of a split index
minimizing the width difference over all valid split indices. -/
theorem c2_balanced_split_optimal (m : List Char → ℚ) (text : List Char)
    (maxWidth : ℚ) (vmw : ℕ)
    (h1 : ¬ (rangeWidth m (m [' ']) (jsSplit [' '] text) ≤ maxWidth ∧
      (jsSplit [' '] text).length ≤ vmw))
    (h2 : ∃ i, 1 ≤ i ∧ i < (jsSplit [' '] text).length ∧
      splitValid m (m [' ']) maxWidth vmw (jsSplit [' '] text) i) :
    ∃ i, 1 ≤ i ∧ i < (jsSplit [' '] text).length ∧
      splitValid m (m [' ']) maxWidth vmw (jsSplit [' '] text) i ∧
      getWrappedLines m text maxWidth vmw =
        [joinSep [' '] ((jsSplit [' '] text).take i),
         joinSep [' '] ((jsSplit [' '] text).drop i)] ∧
      ∀ j, 1 ≤ j → j < (jsSplit [' '] text).length →
        splitValid m (m [' ']) maxWidth vmw (jsSplit [' '] text) j →
        splitDiff m (m [' ']) (jsSplit [' '] text) i ≤
          splitDiff m (m [' ']) (jsSplit [' '] text) j := by
  have hNge : 1 ≤ (jsSplit [' '] text).length :=
    List.length_pos.mpr (jsSplit_ne_nil _ _)
  cases hbs : bestSplit m (m [' ']) maxWidth vmw (jsSplit [' '] text) with
  | none =>
    exfalso
    have hspec := bestSplit_spec m (m [' ']) maxWidth vmw (jsSplit [' '] text)
    rw [hbs] at hspec
    have hspec2 : ∀ j ∈ List.range' 1 ((jsSplit [' '] text).length - 1),
        ¬ splitValid m (m [' ']) maxWidth vmw (jsSplit [' '] text) j := hspec
    obtain ⟨i, hi1, hiN, hvi⟩ := h2
    exact hspec2 i (by rw [List.mem_range'_1]; omega) hvi
  | some id0 =>
    obtain ⟨i, d⟩ := id0
    have hspec := bestSplit_spec m (m [' ']) maxWidth vmw (jsSplit [' '] text)
    rw [hbs] at hspec
    have hspec2 : i ∈ List.range' 1 ((jsSplit [' '] text).length - 1) ∧
        splitValid m (m [' ']) maxWidth vmw (jsSplit [' '] text) i ∧
        d = splitDiff m (m [' ']) (jsSplit [' '] text) i ∧
        ∀ j ∈ List.range' 1 ((jsSplit [' '] text).length - 1),
          splitValid m (m [' ']) maxWidth vmw (jsSplit [' '] text) j →
          d ≤ splitDiff m (m [' ']) (jsSplit [' '] text) j := hspec
    obtain ⟨hi1, hiN⟩ := mem_range'_bounds i _ hspec2.1 hNge
    refine ⟨i, hi1, hiN, hspec2.2.1, ?_, ?_⟩
    · exact getWrappedLines_eq_split m text maxWidth vmw i d h1 hbs
    · intro j hj1 hjN hvj
      have hd := hspec2.2.2.1
      have := hspec2.2.2.2 j (by rw [List.mem_range'_1]; omega) hvj
      rw [hd] at this
      exact this

/-- C9: in the frame-accurate export, the frame at t = k/30 is flagged as
a forced key-frame exactly when round(t·30) is a multiple of 60 (which at
t = 0 always holds), i.e. the first frame and every 2 seconds. -/
theorem c9_keyframe_flag (k : ℕ) :
    (keyFrameFlag 30 ((k : ℚ) / 30) = true ↔ k % 60 = 0) ∧
    keyFrameFlag 30 0 = true := by
  constructor
  · unfold keyFrameFlag
    rw [Bool.or_eq_true, decide_eq_true_eq, decide_eq_true_eq]
    have hmul : ((k : ℚ) / 30) * ((30 : ℕ) : ℚ) = (k : ℚ) := by
      push_cast
      field_simp
    have hround : jsRound ((k : ℚ)) = (k : ℤ) := by
      unfold jsRound
      rw [Int.floor_eq_iff]
      constructor
      · push_cast
        linarith
      · push_cast
        linarith
    have htmod : ((k : ℤ)).tmod (2 * ((30 : ℕ) : ℤ)) = (k : ℤ) % 60 := by
      rw [Int.tmod_eq_emod (by positivity) (by norm_num)]
      norm_num
    rw [hmul, hround, htmod]
    constructor
    · intro h
      rcases h with h | h
      · have hk : k = 0 := by
          have := div_eq_zero_iff.mp h
          rcases this with h0 | h0
          · exact_mod_cast h0
          · norm_num at h0
        simp [hk]
      · omega
    · intro h
      right
      omega
  · decide

/-- C5: for every animation kind the applied opacity lies in the unit
interval for all nonnegative elapsed times, and each time-bounded
animation reaches its steady state at its stated duration: fade alpha 1 at
0.25s, slide alpha 1 and zero translation at 0.3s, pop alpha 1 and scale 1
at 0.3s, bounce zero vertical offset at 0.6s, shake zero horizontal offset
at 0.5s. -/
theorem c5_animation_bounds (sin : ℚ → ℚ) (width height : ℚ) (k : AnimKind)
    (e : ℚ) (he : 0 ≤ e) :
    (0 ≤ (animFx sin width height k e).alpha ∧
      (animFx sin width height k e).alpha ≤ 1) ∧
    (1/4 ≤ e → (animFx sin width height AnimKind.fade e).alpha = 1) ∧
    (3/10 ≤ e → (animFx sin width height AnimKind.slide e).alpha = 1 ∧
      (animFx sin width height AnimKind.slide e).ty = 0) ∧
    (3/10 ≤ e → (animFx sin width height AnimKind.pop e).alpha = 1 ∧
      (animFx sin width height AnimKind.pop e).scale = 1) ∧
    (3/5 ≤ e → (animFx sin width height AnimKind.bounce e).ty = 0) ∧
    (1/2 ≤ e → (animFx sin width height AnimKind.shake e).tx = 0) := by
  refine ⟨?_, ?_, ?_, ?_, ?_, ?_⟩
  · cases k with
    | none => exact ⟨zero_le_one, le_refl 1⟩
    | fade => exact ⟨clampProgress_nonneg _ _, clampProgress_le_one _ _⟩
    | slide => exact ⟨clampProgress_nonneg _ _, clampProgress_le_one _ _⟩
    | pop => exact ⟨clampProgress_nonneg _ _, clampProgress_le_one _ _⟩
    | bounce =>
      show 0 ≤ (if clampProgress (3/5) e < 3/10
          then clampProgress (3/5) e / (3/10) else 1) ∧
        (if clampProgress (3/5) e < 3/10
          then clampProgress (3/5) e / (3/10) else 1) ≤ 1
      by_cases hp : clampProgress (3/5) e < 3/10
      · rw [if_pos hp]
        constructor
        · exact div_nonneg (clampProgress_nonneg _ _) (by norm_num)
        · have h1 : clampProgress (3/5) e / (3/10) < 1 := by
            rw [div_lt_one (by norm_num)]
            exact hp
          linarith
      · rw [if_neg hp]
        exact ⟨zero_le_one, le_refl 1⟩
    | glow => exact ⟨zero_le_one, le_refl 1⟩
    | shake =>
      show 0 ≤ (animFx sin width height AnimKind.shake e).alpha ∧
        (animFx sin width height AnimKind.shake e).alpha ≤ 1
      unfold animFx
      by_cases hp : clampProgress (1/2) e < 1
      · rw [if_pos hp]
        exact ⟨zero_le_one, le_refl 1⟩
      · rw [if_neg hp]
        exact ⟨zero_le_one, le_refl 1⟩
  · intro hd
    show clampProgress (1/4) e = 1
    exact clampProgress_eq_one _ _ (by norm_num) hd
  · intro hd
    have hp : clampProgress (3/10) e = 1 :=
      clampProgress_eq_one _ _ (by norm_num) hd
    constructor
    · show clampProgress (3/10) e = 1
      exact hp
    · show (1 - clampProgress (3/10) e) * (height * (5/100)) = 0
      rw [hp]
      ring
  · intro hd
    have hp : clampProgress (3/10) e = 1 :=
      clampProgress_eq_one _ _ (by norm_num) hd
    constructor
    · show clampProgress (3/10) e = 1
      exact hp
    · show 1/2 + 1/2 * clampProgress (3/10) e = 1
      rw [hp]
      norm_num
  · intro hd
    have hp : clampProgress (3/5) e = 1 :=
      clampProgress_eq_one _ _ (by norm_num) hd
    show bounceYOffset (clampProgress (3/5) e) * (height / 1000) * 50 = 0
    rw [hp]
    have hb : bounceYOffset 1 = 0 := by
      unfold bounceYOffset
      norm_num
    rw [hb]
    ring
  · intro hd
    have hp : clampProgress (1/2) e = 1 :=
      clampProgress_eq_one _ _ (by norm_num) hd
    unfold animFx
    rw [hp, if_neg (by norm_num)]

/-- C8 counterexample: the export entry point performs no isExporting
check — invoked while the flag is set (one job in flight), it starts a
second job, so the claim as stated fails; mutual exclusion comes only from
the disabled attribute on the export button. -/
theorem c8_counterexample :
    (⟨true, 1⟩ : ExportModel).isExporting = true ∧
    (handleFastExport true true ⟨true, 1⟩).inFlight = 2 := by
  decide

theorem stepExport_inv (st : ExportModel) (ev : ExpEvent) (h : ExpInv st) :
    ExpInv (stepExport st ev) := by
  cases ev with
  | click r s =>
    show ExpInv (clickExport r s st)
    unfold clickExport
    by_cases hex : st.isExporting = true
    · rw [if_pos hex]
      exact h
    · have hex' : st.isExporting = false := by
        cases hfe : st.isExporting
        · rfl
        · exact absurd hfe hex
      rw [if_neg hex]
      have h0 : st.inFlight = 0 := h.2 hex'
      unfold handleFastExport startExportJob
      cases r with
      | false => simpa using h
      | true =>
        have hinv : ExpInv (⟨true, st.inFlight + 1⟩ : ExportModel) := by
          refine ⟨?_, ?_⟩
          · show st.inFlight + 1 ≤ 1
            omega
          · intro hc
            exact absurd hc (by simp)
        cases s
        · simpa using hinv
        · simpa using hinv
  | finish =>
    show ExpInv (if st.inFlight = 0 then st else finishExportJob st)
    by_cases h0 : st.inFlight = 0
    · rw [if_pos h0]
      exact h
    · rw [if_neg h0]
      unfold finishExportJob
      have h1 := h.1
      refine ⟨?_, fun _ => ?_⟩
      · show st.inFlight - 1 ≤ 1
        omega
      · show st.inFlight - 1 = 0
        omega

theorem runExport_inv (evs : List ExpEvent) : ExpInv (runExport evs) := by
  unfold runExport
  have hgen : ∀ (l : List ExpEvent) (st : ExportModel), ExpInv st →
      ExpInv (l.foldl stepExport st) := by
    intro l
    induction l with
    | nil => intro st h; exact h
    | cons ev l' ih =>
      intro st h
      rw [List.foldl_cons]
      exact ih _ (stepExport_inv st ev h)
  exact hgen evs ⟨false, 0⟩ ⟨by norm_num, fun _ => rfl⟩

/-- C8 (amended): the flag check lives on the UI button, not in the
handlers — across every sequence of button clicks and job completions at
most one export job is ever in flight, and a click while the flag is set
is a no-op; but the handlers themselves, invoked directly, do not check
the flag (see the counterexample). -/
theorem c8_single_export_amended (evs : List ExpEvent) (st : ExportModel)
    (r s : Bool) (hex : st.isExporting = true) :
    (runExport evs).inFlight ≤ 1 ∧
    ((runExport evs).isExporting = false → (runExport evs).inFlight = 0) ∧
    clickExport r s st = st := by
  obtain ⟨h1, h2⟩ := runExport_inv evs
  refine ⟨h1, h2, ?_⟩
  unfold clickExport
  rw [if_pos hex]

/-- Concrete run for the amended single-export theorem: two clicks in a
row leave at most one job in flight, and a click in an exporting state is
a no-op. -/
theorem c8_single_export_amended_witness :
    (runExport [ExpEvent.click true true, ExpEvent.click true true]).inFlight ≤ 1 ∧
    ((runExport [ExpEvent.click true true, ExpEvent.click true true]).isExporting = false →
      (runExport [ExpEvent.click true true, ExpEvent.click true true]).inFlight = 0) ∧
    clickExport true true ⟨true, 1⟩ = ⟨true, 1⟩ :=
  c8_single_export_amended [ExpEvent.click true true, ExpEvent.click true true]
    ⟨true, 1⟩ true true (by decide)

/-- C1 counterexample: a well-formed subtitle text (per the claim's own
notion: integer id line, timestamp line, at least one text line in every
block) parses to two segments, yet parsing the serialization of that parse
yields no segments at all, so serialize-after-parse does not reproduce the
parse's (id, start, end, text) tuples. -/
theorem c1_counterexample :
    wellFormedSRT c1BadInput = true ∧
    parseSRT c1BadInput ≠ [] ∧
    parseSRT (generateSRT (parseSRT c1BadInput)) = [] :=
  ⟨by decide, by decide, by decide⟩

/-- C1 (amended): for every subtitle text whose parsed segments are clean
(nonempty trim-fixed fields without newlines, and a timestamp line that
re-splits into exactly the stored start and end), serializing the parse
and re-parsing reproduces exactly the parsed segments. -/
theorem c1_roundtrip_amended (txt : List Char) (h : allClean (parseSRT txt)) :
    parseSRT (generateSRT (parseSRT txt)) = parseSRT txt :=
  parseSRT_generateSRT (parseSRT txt) h

/-- Concrete round trip: the hypothesis of the amended claim holds on the
good input and the round trip reproduces its parse. -/
theorem c1_roundtrip_amended_witness :
    allClean (parseSRT c1GoodInput) ∧
    parseSRT (generateSRT (parseSRT c1GoodInput)) = parseSRT c1GoodInput :=
  ⟨by decide, c1_roundtrip_amended c1GoodInput (by decide)⟩

/-- C6 counterexample: serialization does not always use a comma — for a
nonempty caption set parsed from dot-separated input, the serialized
output contains no comma at all (generateSRT emits the stored timestamp
strings verbatim). -/
theorem c6_counterexample :
    parseSRT c6DotInput ≠ [] ∧
    ',' ∉ generateSRT (parseSRT c6DotInput) ∧
    '.' ∈ generateSRT (parseSRT c6DotInput) :=
  ⟨by decide, by decide, by decide⟩

/-- C6 (amended): timestamp parsing accepts a comma or a dot as the
millisecond separator with the same numeric result, and serialization
reproduces each segment's stored timestamp text verbatim inside the
output (so the output uses a comma exactly where the stored timestamps
do; dot-separated parsed input stays dot-separated). -/
theorem c6_timestamp_amended (a b : List Char)
    (segs : List CaptionSegment) (s : CaptionSegment)
    (ha : ',' ∉ a) (hb : ',' ∉ b) (hs : s ∈ segs) :
    parseTime (a ++ ',' :: b) = parseTime (a ++ '.' :: b) ∧
    ∃ L R, generateSRT segs =
      L ++ ((s.startTime ++ arrowSep ++ s.endTime) ++ R) :=
  ⟨parseTime_comma_dot a b ha hb, generateSRT_timestamps_verbatim segs s hs⟩

/-- Concrete instance of the amended timestamp claim: comma and dot parse
alike on a concrete timestamp, and the dot timestamps of the concrete
caption set appear verbatim in its serialization. -/
theorem c6_timestamp_amended_witness :
    parseTime (("00:00:05").toList ++ ',' :: ("123").toList) =
      parseTime (("00:00:05").toList ++ '.' :: ("123").toList) ∧
    ∃ L R, generateSRT (parseSRT c6DotInput) =
      L ++ (((⟨1, ("00:00:01.000").toList, ("00:00:02.000").toList,
        ("hi").toList⟩ : CaptionSegment).startTime ++ arrowSep ++
        (⟨1, ("00:00:01.000").toList, ("00:00:02.000").toList,
        ("hi").toList⟩ : CaptionSegment).endTime) ++ R) :=
  c6_timestamp_amended (("00:00:05").toList) (("123").toList)
    (parseSRT c6DotInput)
    ⟨1, ("00:00:01.000").toList, ("00:00:02.000").toList, ("hi").toList⟩
    (by decide) (by decide) (by decide)

/-- C7 counterexample: a block whose id line is not an integer (so
malformed in the claim's sense) still contributes a segment — JS parseInt
takes the leading digits of "12abc" and the block parses with id 12. -/
theorem c7_counterexample :
    literalWellFormedBlock c7Block = false ∧
    parseSRT c7Block =
      [⟨12, ("00:00:01,000").toList, ("00:00:02,000").toList, ("hi").toList⟩] :=
  ⟨by decide, by decide⟩

/-- C7 (amended): parsing is total and best-effort — the result is exactly
the per-block parses that succeed, in order, and a block contributes no
segment precisely when it has fewer than three lines, an id line on which
parseInt fails (no parseable leading integer), or a timestamp line without
an arrow-separated pair of nonempty start and end; every other block
yields its segment. -/
theorem c7_parse_best_effort_amended (txt b : List Char)
    (hb : b ∈ blocksOf txt) :
    parseSRT txt = (blocksOf txt).filterMap parseBlock ∧
    (parseBlock b = Option.none ↔ codeMalformedBlock b = true) :=
  ⟨parseSRT_eq_blocks txt, parseBlock_none_iff b⟩

/-- Concrete instance of the amended best-effort claim on a mixed input:
the parse equals the filtered per-block parses, and the malformed block
satisfies the none-iff-malformed equivalence. -/
theorem c7_parse_best_effort_amended_witness :
    parseSRT c7Mixed = (blocksOf c7Mixed).filterMap parseBlock ∧
    (parseBlock (("nope").toList) = Option.none ↔
      codeMalformedBlock (("nope").toList) = true) :=
  c7_parse_best_effort_amended c7Mixed (("nope").toList) (by decide)

/-- Concrete instance of the layout invariants: on the four-word text with
word limit 2, the first produced line has at most 2 words and fits the
width. -/
theorem c3_layout_invariants_witness :
    1 ≤ 2 ∧ ("aa bb").toList ∈ getWrappedLines lenMeasure (("aa bb cc dd").toList) 6 2 ∧
    ((jsSplit [' '] (("aa bb").toList)).length ≤ 2 ∧
      (rangeWidth lenMeasure (lenMeasure [' ']) (jsSplit [' '] (("aa bb").toList)) ≤ 6 ∨
        (jsSplit [' '] (("aa bb").toList) = [("aa bb").toList] ∧
          ("aa bb").toList ∈ jsSplit [' '] (("aa bb cc dd").toList)))) :=
  ⟨by decide, by decide,
   c3_layout_invariants lenMeasure (("aa bb cc dd").toList) 6 2
     (("aa bb").toList) (by decide) (by decide)⟩

/-- Concrete instance of balanced-split optimality: on the four-word text
with word limit 2 and width 6, a valid split exists and the chosen one
minimizes the width difference. -/
theorem c2_balanced_split_optimal_witness :
    (¬ (rangeWidth lenMeasure (lenMeasure [' ']) (jsSplit [' '] (("aa bb cc dd").toList)) ≤ 6 ∧
      (jsSplit [' '] (("aa bb cc dd").toList)).length ≤ 2)) ∧
    (∃ i, 1 ≤ i ∧ i < (jsSplit [' '] (("aa bb cc dd").toList)).length ∧
      splitValid lenMeasure (lenMeasure [' ']) 6 2 (jsSplit [' '] (("aa bb cc dd").toList)) i) ∧
    (∃ i, 1 ≤ i ∧ i < (jsSplit [' '] (("aa bb cc dd").toList)).length ∧
      splitValid lenMeasure (lenMeasure [' ']) 6 2 (jsSplit [' '] (("aa bb cc dd").toList)) i ∧
      getWrappedLines lenMeasure (("aa bb cc dd").toList) 6 2 =
        [joinSep [' '] ((jsSplit [' '] (("aa bb cc dd").toList)).take i),
         joinSep [' '] ((jsSplit [' '] (("aa bb cc dd").toList)).drop i)] ∧
      ∀ j, 1 ≤ j → j < (jsSplit [' '] (("aa bb cc dd").toList)).length →
        splitValid lenMeasure (lenMeasure [' ']) 6 2 (jsSplit [' '] (("aa bb cc dd").toList)) j →
        splitDiff lenMeasure (lenMeasure [' ']) (jsSplit [' '] (("aa bb cc dd").toList)) i ≤
          splitDiff lenMeasure (lenMeasure [' ']) (jsSplit [' '] (("aa bb cc dd").toList)) j) :=
  ⟨by decide, ⟨2, by decide, by decide, by decide⟩,
   c2_balanced_split_optimal lenMeasure (("aa bb cc dd").toList) 6 2
     (by decide) ⟨2, by decide, by decide, by decide⟩⟩

/-- Concrete instance of the animation bounds at the fade kind one second
in. -/
theorem c5_animation_bounds_witness :
    (0 : ℚ) ≤ 1 ∧
    ((0 ≤ (animFx (fun _ => 0) 1000 1000 AnimKind.fade 1).alpha ∧
      (animFx (fun _ => 0) 1000 1000 AnimKind.fade 1).alpha ≤ 1) ∧
    (1/4 ≤ (1 : ℚ) → (animFx (fun _ => 0) 1000 1000 AnimKind.fade 1).alpha = 1) ∧
    (3/10 ≤ (1 : ℚ) → (animFx (fun _ => 0) 1000 1000 AnimKind.slide 1).alpha = 1 ∧
      (animFx (fun _ => 0) 1000 1000 AnimKind.slide 1).ty = 0) ∧
    (3/10 ≤ (1 : ℚ) → (animFx (fun _ => 0) 1000 1000 AnimKind.pop 1).alpha = 1 ∧
      (animFx (fun _ => 0) 1000 1000 AnimKind.pop 1).scale = 1) ∧
    (3/5 ≤ (1 : ℚ) → (animFx (fun _ => 0) 1000 1000 AnimKind.bounce 1).ty = 0) ∧
    (1/2 ≤ (1 : ℚ) → (animFx (fun _ => 0) 1000 1000 AnimKind.shake 1).tx = 0)) :=
  ⟨by norm_num,
   c5_animation_bounds (fun _ => 0) 1000 1000 AnimKind.fade 1 (by norm_num)⟩

/-- C4 counterexample: a caption text edit does not invalidate the entire
layout cache — after editing caption 1, the cache is nonempty and a lookup
for caption 2 still returns the lines computed before the edit
(handleCaptionChange deletes only the edited caption's entry). -/
theorem c4_counterexample :
    c4State2.cache ≠ [] ∧
    lookupC 2 c4State2.cache = lookupC 2 c4State1.cache ∧
    lookupC 2 c4State1.cache ≠ Option.none :=
  ⟨by decide, by decide, by decide⟩

/-- C4 (amended): a style change clears the entire layout cache; a caption
text edit removes exactly the edited caption's entry; and the no-staleness
invariant is preserved by every event — every cache entry stays equal to
the layout of that caption's current text under the current style. -/
theorem c4_cache_coherence_amended (measureOf : WrapStyle → List Char → ℚ)
    (maxWidth : ℚ) (st : CaptionsModel) (ev : UiEvent) (sty : WrapStyle)
    (id : ℤ) (t : List Char) (h : Coherent measureOf maxWidth st) :
    Coherent measureOf maxWidth (stepEvent measureOf maxWidth st ev) ∧
    (stepEvent measureOf maxWidth st (UiEvent.setStyle sty)).cache = [] ∧
    lookupC id (stepEvent measureOf maxWidth st (UiEvent.editCaption id t)).cache =
      Option.none := by
  refine ⟨?_, rfl, lookupC_eraseC_self id st.cache⟩
  cases ev with
  | setStyle sty' =>
    intro e he
    simp [stepEvent] at he
  | editCaption id' t' =>
    intro e he
    have he' : e ∈ eraseC id' st.cache := he
    obtain ⟨hmem, hne⟩ := mem_eraseC id' st.cache e he'
    have hcoh := h e hmem
    show (lookupC e.1 (editTexts id' t' st.captions)).map
      (layoutOf measureOf maxWidth st.style) = some e.2
    rw [lookupC_editTexts_ne e.1 id' t' st.captions hne]
    exact hcoh
  | renderCaption id' =>
    cases hcc : lookupC id' st.cache with
    | some v =>
      have hstep : stepEvent measureOf maxWidth st (UiEvent.renderCaption id') = st := by
        simp only [stepEvent, hcc]
      rw [hstep]
      exact h
    | none =>
      cases hcap : lookupC id' st.captions with
      | some text =>
        have hstep : stepEvent measureOf maxWidth st (UiEvent.renderCaption id') =
            { st with cache :=
              (id', layoutOf measureOf maxWidth st.style text) :: st.cache } := by
          simp only [stepEvent, hcc, hcap]
        rw [hstep]
        intro e he
        rcases List.mem_cons.mp he with he | he
        · rw [he]
          show (lookupC id' st.captions).map
            (layoutOf measureOf maxWidth st.style) =
            some (layoutOf measureOf maxWidth st.style text)
          rw [hcap]
          rfl
        · exact h e he
      | none =>
        have hstep : stepEvent measureOf maxWidth st (UiEvent.renderCaption id') = st := by
          simp only [stepEvent, hcc, hcap]
        rw [hstep]
        exact h

/-- Concrete instance of the amended cache claim at the populated
two-entry state, under a text edit of caption 1. -/
theorem c4_cache_coherence_amended_witness :
    Coherent c4Measure 100 c4State1 ∧
    (Coherent c4Measure 100
      (stepEvent c4Measure 100 c4State1 (UiEvent.editCaption 1 (("hey").toList))) ∧
    (stepEvent c4Measure 100 c4State1 (UiEvent.setStyle c4Style)).cache = [] ∧
    lookupC 1 (stepEvent c4Measure 100 c4State1
      (UiEvent.editCaption 1 (("hey").toList))).cache = Option.none) :=
  ⟨by decide,
   c4_cache_coherence_amended c4Measure 100 c4State1
     (UiEvent.editCaption 1 (("hey").toList)) c4Style 1 (("hey").toList)
     (by decide)⟩

end Cap
